import Mathlib

/-!
Verification development for the kyra bytecode toolchain: a shallow
embedding of the compiler emission pass (src/internal/parser/parser.go,
package bytecode), of the stack virtual machine (src/unnamed/part_001,
package kvm), and of the KBC v2 binary module format, together with
theorems settling the specification claims.

Modelling conventions:
- Go byte slices are `List Nat` (each entry a byte value 0..255);
  Go strings are byte lists as well (Go strings are raw byte sequences).
- Go `float64` is modelled by `FloatVal`: an exact extended-rational model
  of IEEE double values (finite, +Inf, -Inf, NaN).  Every floating-point
  operation appearing in the claims (small-integer addition, remainder,
  division by zero, equality) is exact in IEEE double, so the model agrees
  with the source on all inputs the theorems use.
- Go `interface{}` runtime values are `Value`.
- Go panics are explicit error results (`Except`, or error constructors of
  a result type); the distinct panic sites map to distinct error values.
-/

namespace Kyra

/-- Extended-rational model of Go `float64`: finite values are exact
rationals; the special values +Inf, -Inf and NaN are explicit. -/
inductive FloatVal where
  | finite (q : ℚ)
  | inf
  | negInf
  | nan
deriving DecidableEq, Repr

namespace FloatVal

/-- Truncation toward zero of a rational, as in Go `math.Trunc` /
float-to-int conversion. -/
def ratTrunc (q : ℚ) : ℤ :=
  if 0 ≤ q then ⌊q⌋ else ⌈q⌉

/-- IEEE addition (`a + b` on Go float64), exact on finite values. -/
def fadd : FloatVal → FloatVal → FloatVal
  | finite a, finite b => finite (a + b)
  | finite _, inf => inf
  | finite _, negInf => negInf
  | inf, finite _ => inf
  | negInf, finite _ => negInf
  | inf, inf => inf
  | negInf, negInf => negInf
  | inf, negInf => nan
  | negInf, inf => nan
  | _, _ => nan

/-- IEEE subtraction (`a - b` on Go float64), exact on finite values. -/
def fsub : FloatVal → FloatVal → FloatVal
  | finite a, finite b => finite (a - b)
  | finite _, inf => negInf
  | finite _, negInf => inf
  | inf, finite _ => inf
  | negInf, finite _ => negInf
  | inf, negInf => inf
  | negInf, inf => negInf
  | inf, inf => nan
  | negInf, negInf => nan
  | _, _ => nan

/-- IEEE multiplication (`a * b` on Go float64), exact on finite values. -/
def fmul : FloatVal → FloatVal → FloatVal
  | finite a, finite b => finite (a * b)
  | finite a, inf => if a = 0 then nan else if 0 < a then inf else negInf
  | finite a, negInf => if a = 0 then nan else if 0 < a then negInf else inf
  | inf, finite b => if b = 0 then nan else if 0 < b then inf else negInf
  | negInf, finite b => if b = 0 then nan else if 0 < b then negInf else inf
  | inf, inf => inf
  | negInf, negInf => inf
  | inf, negInf => negInf
  | negInf, inf => negInf
  | _, _ => nan

/-- IEEE division (`a / b` on Go float64).  Division of a nonzero finite
value by zero yields a signed infinity; `0 / 0` yields NaN; finite
quotients are exact rationals. -/
def fdiv : FloatVal → FloatVal → FloatVal
  | finite a, finite b =>
      if b = 0 then
        if a = 0 then nan else if 0 < a then inf else negInf
      else finite (a / b)
  | finite _, inf => finite 0
  | finite _, negInf => finite 0
  | inf, finite b => if 0 ≤ b then inf else negInf
  | negInf, finite b => if 0 ≤ b then negInf else inf
  | _, _ => nan

/-- Go `math.Mod(a, b)`: floating-point remainder with the sign of `a`
(`a - b * trunc(a/b)`); `Mod(x, 0)`, `Mod(Inf, y)` are NaN, and
`Mod(x, Inf) = x` for finite `x`. -/
def fmod : FloatVal → FloatVal → FloatVal
  | finite a, finite b =>
      if b = 0 then nan else finite (a - b * ratTrunc (a / b))
  | finite a, inf => finite a
  | finite a, negInf => finite a
  | _, _ => nan

/-- IEEE equality (Go `==` on float64): NaN is unequal to everything. -/
def feq : FloatVal → FloatVal → Bool
  | finite a, finite b => a = b
  | inf, inf => true
  | negInf, negInf => true
  | _, _ => false

/-- IEEE `<` (Go `<` on float64): false whenever an operand is NaN. -/
def flt : FloatVal → FloatVal → Bool
  | finite a, finite b => a < b
  | finite _, inf => true
  | negInf, finite _ => true
  | negInf, inf => true
  | _, _ => false

/-- IEEE `<=` (Go `<=` on float64): false whenever an operand is NaN. -/
def fle (a b : FloatVal) : Bool := flt a b || feq a b

/-- Go float-to-int conversion `int(f)`: truncation toward zero.  For
non-finite inputs the Go result is implementation-defined; the model
returns 0 there (no claim exercises that corner). -/
def toInt : FloatVal → ℤ
  | finite q => ratTrunc q
  | _ => 0

end FloatVal

/-- Go `boolToFloat` (src/unnamed/part_001): 1 for true, 0 for false. -/
def boolToFloat (b : Bool) : FloatVal :=
  if b then .finite 1 else .finite 0

/-- Runtime value (Go `interface{}` contents): a float64, a string
(byte list), or a non-negative Go int as produced by the module loader. -/
inductive Value where
  | num (f : FloatVal)
  | str (s : List ℕ)
  | int (n : ℕ)
deriving DecidableEq, Repr

/-- Go `==` on two `interface{}` values: equal only when the dynamic
types agree and the payloads are equal; float64 payloads compare with
IEEE equality. -/
def valueEq : Value → Value → Bool
  | .num a, .num b => a.feq b
  | .str a, .str b => a = b
  | .int a, .int b => a = b
  | _, _ => false

/-! ## Virtual machine (src/unnamed/part_001, package kvm) -/

/-- Saved caller context (Go `Frame`): instruction pointer backup, stack
base backup, and references to the caller's code and constant pool. -/
structure Frame where
  ipBackup : ℕ
  spBackup : ℕ
  code : List ℕ
  consts : List Value
deriving DecidableEq, Repr

/-- VM state (Go `VM`).  The `funcs` field is the module function table
consulted by `loadFunction`; that function lives in a repository file not
present under src/ (modelled from the spec: resolution of a numeric
function identifier to a `{code, constants}` pair by positional index,
failing on an unknown identifier). -/
structure VMState where
  constants : List Value
  code : List ℕ
  ip : ℕ
  sp : ℕ
  stack : List Value
  callStack : List Frame
  funcs : List (List ℕ × List Value)
deriving DecidableEq, Repr

/-- Runtime failure; each constructor corresponds to a distinct Go panic
site (explicit panics and runtime bounds / type-assertion panics). -/
inductive RuntimeErr where
  | stackUnderflow
  | indexOutOfRange
  | typeErr
  | unknownOp
  | unresolvedFn
deriving DecidableEq, Repr

/-- Go `vm.push(v)`: append to the physical stack and increment `sp`. -/
def vmPush (st : VMState) (v : Value) : VMState :=
  { st with stack := st.stack ++ [v], sp := st.sp + 1 }

/-- Go `vm.pop()`: underflow when `sp == 0`; otherwise decrement `sp`,
read `stack[sp]` (a bounds panic if `sp` exceeds the physical length,
which can happen after the call transition desynchronizes them) and
truncate the physical stack to the new `sp`. -/
def vmPop (st : VMState) : Except RuntimeErr (Value × VMState) :=
  if st.sp = 0 then .error .stackUnderflow
  else
    match st.stack.get? (st.sp - 1) with
    | none => .error .indexOutOfRange
    | some v =>
        .ok (v, { st with sp := st.sp - 1, stack := st.stack.take (st.sp - 1) })

/-- Little-endian decoding of 4 bytes read at offset `p` of `b`
(Go `binary.LittleEndian.Uint32(b[p:])`); the value is out of range when
fewer than 4 bytes remain. -/
def rdU32 (b : List ℕ) (p : ℕ) : Except RuntimeErr ℕ :=
  if p + 4 ≤ b.length then
    .ok (b.getD p 0 + 256 * b.getD (p + 1) 0 + 65536 * b.getD (p + 2) 0 +
      16777216 * b.getD (p + 3) 0)
  else .error .indexOutOfRange

/-- Go `vm.readInt()`: read a 4-byte little-endian operand at `ip` from
the active code and advance `ip` by 4. -/
def vmReadInt (st : VMState) : Except RuntimeErr (ℕ × VMState) := do
  let v ← rdU32 st.code st.ip
  .ok (v, { st with ip := st.ip + 4 })

/-- The argument-copy loop of Go `callFunction`: for `i` from `i0`,
`k` more iterations, read `stack[base+i]` of the current (growing) stack
and push it. -/
def copyArgs (base : ℕ) : ℕ → ℕ → VMState → Except RuntimeErr VMState
  | _, 0, st => .ok st
  | i, k + 1, st =>
      match st.stack.get? (base + i) with
      | none => .error .indexOutOfRange
      | some v => copyArgs base (i + 1) k (vmPush st v)

/-- Go `callFunction(fnID, argCount)`: resolve the callee (spec-modelled
table lookup), push a frame saving the caller's `ip`, stack base
(`sp - argCount`), code and constants; switch to the callee's code and
constants with `ip = 0` and `sp = 0`; then copy the `argCount` values
starting at the saved base onto the top of the shared physical stack.
A negative base (`argCount > sp`, Go index panic at the first copy) is an
out-of-range error. -/
def callFunction (fnID : ℤ) (argCount : ℕ) (st : VMState) :
    Except RuntimeErr VMState :=
  if 0 ≤ fnID then
    match st.funcs.get? fnID.toNat with
    | none => .error .unresolvedFn
    | some fn =>
        if argCount ≤ st.sp then
          let base := st.sp - argCount
          let frame : Frame := ⟨st.ip, base, st.code, st.constants⟩
          copyArgs base 0 argCount
            { st with callStack := st.callStack ++ [frame],
                      code := fn.1, constants := fn.2, ip := 0, sp := 0 }
        else .error .indexOutOfRange
  else .error .unresolvedFn

/-- Go `returnFromFunction`: pop the return value, pop the most recent
frame, restore code/constants/`ip`/`sp` from it, and push the return
value (an append on the physical stack). -/
def returnFromFunction (st : VMState) : Except RuntimeErr VMState := do
  let (ret, st1) ← vmPop st
  match st1.callStack.getLast? with
  | none => .error .indexOutOfRange
  | some frame =>
      .ok (vmPush { st1 with callStack := st1.callStack.dropLast,
                             code := frame.code, constants := frame.consts,
                             ip := frame.ipBackup, sp := frame.spBackup } ret)

/-- Result of dispatching one instruction. -/
inductive StepRes where
  | ok (st : VMState)
  | retVal (v : Value) (st : VMState)
  | halt (st : VMState)
  | err (e : RuntimeErr)
deriving DecidableEq, Repr

/-- Binary arithmetic opcode body: `b := pop().(float64)` then
`a := pop().(float64)` (the type assertion panics on a non-Number before
the second pop), pushing `f a b`. -/
def binNumOp (f : FloatVal → FloatVal → FloatVal) (st : VMState) : StepRes :=
  match vmPop st with
  | .error e => .err e
  | .ok (bv, st1) =>
      match bv with
      | .num b =>
          match vmPop st1 with
          | .error e => .err e
          | .ok (av, st2) =>
              match av with
              | .num a => .ok (vmPush st2 (.num (f a b)))
              | _ => .err .typeErr
      | _ => .err .typeErr

/-- Binary relational opcode body: pops as `binNumOp`, pushing
`boolToFloat (g a b)`. -/
def binCmpOp (g : FloatVal → FloatVal → Bool) (st : VMState) : StepRes :=
  match vmPop st with
  | .error e => .err e
  | .ok (bv, st1) =>
      match bv with
      | .num b =>
          match vmPop st1 with
          | .error e => .err e
          | .ok (av, st2) =>
              match av with
              | .num a => .ok (vmPush st2 (.num (boolToFloat (g a b))))
              | _ => .err .typeErr
      | _ => .err .typeErr

/-- Equality opcodes: pop `b` then `a` with no type assertion and push
`boolToFloat` of the Go interface comparison. -/
def binEqOp (g : Value → Value → Bool) (st : VMState) : StepRes :=
  match vmPop st with
  | .error e => .err e
  | .ok (bv, st1) =>
      match vmPop st1 with
      | .error e => .err e
      | .ok (av, st2) => .ok (vmPush st2 (.num (boolToFloat (g av bv))))

/-- Lift a stateful `Except` transition into a `StepRes`. -/
def liftStep (r : Except RuntimeErr VMState) : StepRes :=
  match r with
  | .ok st => .ok st
  | .error e => .err e

/-- One iteration of the Go `Run` dispatch loop: fetch the opcode byte at
`ip`, advance `ip`, and execute it.  Opcode numbering follows the
`OP_...` constants of src/internal/parser/parser.go (package bytecode)
and the case labels of `Run`. -/
def step (st : VMState) : StepRes :=
  match st.code.get? st.ip with
  | none => .err .unknownOp
  | some op =>
      let st := { st with ip := st.ip + 1 }
      match op with
      | 0x01 => -- OP_CONST
          match vmReadInt st with
          | .error e => .err e
          | .ok (idx, st1) =>
              match st1.constants.get? idx with
              | none => .err .indexOutOfRange
              | some v => .ok (vmPush st1 v)
      | 0x02 => binNumOp FloatVal.fadd st           -- OP_ADD
      | 0x03 => binNumOp FloatVal.fsub st           -- OP_SUB
      | 0x04 => binNumOp FloatVal.fmul st           -- OP_MUL
      | 0x05 => binNumOp FloatVal.fdiv st           -- OP_DIV
      | 0x06 => binNumOp FloatVal.fmod st           -- OP_MOD
      | 0x07 => binEqOp (fun a b => valueEq a b) st -- OP_EQ
      | 0x08 => binEqOp (fun a b => !valueEq a b) st -- OP_NEQ
      | 0x09 => binCmpOp FloatVal.flt st            -- OP_LT
      | 0x0A => binCmpOp (fun a b => FloatVal.flt b a) st -- OP_GT
      | 0x0B => binCmpOp FloatVal.fle st            -- OP_LE
      | 0x0C => binCmpOp (fun a b => FloatVal.fle b a) st -- OP_GE
      | 0x0D => binCmpOp (fun a b =>                -- OP_AND
          !a.feq (.finite 0) && !b.feq (.finite 0)) st
      | 0x0E => binCmpOp (fun a b =>                -- OP_OR
          !a.feq (.finite 0) || !b.feq (.finite 0)) st
      | 0x0F => -- OP_NOT
          match vmPop st with
          | .error e => .err e
          | .ok (av, st1) =>
              match av with
              | .num a => .ok (vmPush st1 (.num (boolToFloat (a.feq (.finite 0)))))
              | _ => .err .typeErr
      | 0x10 => -- OP_LOAD
          match vmReadInt st with
          | .error e => .err e
          | .ok (idx, st1) =>
              match st1.constants.get? idx with
              | none => .err .indexOutOfRange
              | some v => .ok (vmPush st1 v)
      | 0x11 => -- OP_STORE
          match vmReadInt st with
          | .error e => .err e
          | .ok (idx, st1) =>
              match vmPop st1 with
              | .error e => .err e
              | .ok (v, st2) =>
                  if idx < st2.constants.length then
                    .ok { st2 with constants := st2.constants.set idx v }
                  else .err .indexOutOfRange
      | 0x12 => -- OP_CALL
          match vmReadInt st with
          | .error e => .err e
          | .ok (argCount, st1) =>
              match vmPop st1 with
              | .error e => .err e
              | .ok (fv, st2) =>
                  match fv with
                  | .num f => liftStep (callFunction f.toInt argCount st2)
                  | _ => .err .typeErr
      | 0x13 => -- OP_RET
          if st.callStack.isEmpty then
            match vmPop st with
            | .error e => .err e
            | .ok (v, st1) => .retVal v st1
          else liftStep (returnFromFunction st)
      | 0x14 => -- OP_JMP
          match vmReadInt st with
          | .error e => .err e
          | .ok (target, st1) => .ok { st1 with ip := target }
      | 0x15 => -- OP_JMPF
          match vmReadInt st with
          | .error e => .err e
          | .ok (target, st1) =>
              match vmPop st1 with
              | .error e => .err e
              | .ok (cv, st2) =>
                  match cv with
                  | .num c =>
                      if c.feq (.finite 0) then .ok { st2 with ip := target }
                      else .ok st2
                  | _ => .err .typeErr
      | 0x16 => -- OP_POP
          match vmPop st with
          | .error e => .err e
          | .ok (_, st1) => .ok st1
      | 0x17 => .halt st -- OP_EXIT
      | _ => .err .unknownOp

/-- Outcome of a bounded run: normal completion with an optional result
value and the final state, a runtime error, or fuel exhaustion. -/
inductive RunRes where
  | done (v : Option Value) (st : VMState)
  | err (e : RuntimeErr)
  | fuelOut
deriving DecidableEq, Repr

/-- The Go `Run` loop with explicit fuel: while `ip < len(code)`,
dispatch one instruction; falling off the end of the code (and the halt
opcode) yields no value; a top-level return yields the popped value. -/
def run : ℕ → VMState → RunRes
  | 0, _ => .fuelOut
  | fuel + 1, st =>
      if st.ip < st.code.length then
        match step st with
        | .ok st1 => run fuel st1
        | .retVal v st1 => .done (some v) st1
        | .halt st1 => .done none st1
        | .err e => .err e
      else .done none st

/-! ## Compiler emission (src/internal/parser/parser.go, package bytecode)

Opcode constants mirror the `OP_...` block of the source. -/

def OP_CONST : ℕ := 0x01
def OP_ADD : ℕ := 0x02
def OP_SUB : ℕ := 0x03
def OP_MUL : ℕ := 0x04
def OP_DIV : ℕ := 0x05
def OP_MOD : ℕ := 0x06
def OP_EQ : ℕ := 0x07
def OP_NEQ : ℕ := 0x08
def OP_LT : ℕ := 0x09
def OP_GT : ℕ := 0x0A
def OP_LE : ℕ := 0x0B
def OP_GE : ℕ := 0x0C
def OP_AND : ℕ := 0x0D
def OP_OR : ℕ := 0x0E
def OP_NOT : ℕ := 0x0F
def OP_LOAD : ℕ := 0x10
def OP_STORE : ℕ := 0x11
def OP_CALL : ℕ := 0x12
def OP_RET : ℕ := 0x13
def OP_JMP : ℕ := 0x14
def OP_JMPF : ℕ := 0x15
def OP_POP : ℕ := 0x16
def OP_EXIT : ℕ := 0x17

/-- Go `Chunk`: instruction bytes, constant pool, and the `Names` map.
`Names` is initialized empty by `NewChunk` and never read or written by
any function in the source file, which is why it is carried but never
touched here. -/
structure Chunk where
  Code : List ℕ
  Constants : List Value
  Names : List (List ℕ × ℕ)
deriving DecidableEq, Repr

/-- Go `NewChunk()`. -/
def NewChunk : Chunk := ⟨[], [], []⟩

/-- Go `c.emit(b)`: append one instruction byte. -/
def Chunk.emit (c : Chunk) (b : ℕ) : Chunk :=
  { c with Code := c.Code ++ [b] }

/-- 4-byte little-endian encoding of `v` (Go `PutUint32` of `uint32(v)`);
values of 2^32 or more wrap, as the Go conversion does. -/
def u32le (v : ℕ) : List ℕ :=
  [v % 256, v / 256 % 256, v / 65536 % 256, v / 16777216 % 256]

/-- Go `c.emitInt(v)`: append a 4-byte little-endian operand. -/
def Chunk.emitInt (c : Chunk) (v : ℕ) : Chunk :=
  { c with Code := c.Code ++ u32le v }

/-- Go `c.addConst(v)`: unconditionally append `v` to the constant pool
and return its index.  Note that it never consults `Names` and never
reuses an existing entry. -/
def Chunk.addConst (c : Chunk) (v : Value) : Chunk × ℕ :=
  ({ c with Constants := c.Constants ++ [v] }, c.Constants.length)

/-- Overwrite the 4 bytes at position `p` with the little-endian encoding
of `v` (Go `PutUint32(c.Code[pos:pos+4], ...)`). -/
def writeU32At (l : List ℕ) (p v : ℕ) : List ℕ :=
  ((((l.set p (v % 256)).set (p + 1) (v / 256 % 256)).set
    (p + 2) (v / 65536 % 256)).set (p + 3) (v / 16777216 % 256))

/-- Go `patchJump(c, pos)`: write the current code length as the jump
target at byte position `pos`. -/
def patchJump (c : Chunk) (pos : ℕ) : Chunk :=
  { c with Code := writeU32At c.Code pos c.Code.length }

/-- Expression AST produced by the front end (declared in a parser file
not under src/; the constructor set and field shapes are pinned by the
uses in parser.go and src/unnamed/part_002).  `numE` carries the value of
the literal after `parseNumber`; identifier and operator strings are byte
lists. -/
inductive Expr where
  | numE (v : FloatVal)
  | strE (s : List ℕ)
  | boolE (b : Bool)
  | identE (name : List ℕ)
  | assignE (name : List ℕ) (e : Expr)
  | unaryE (op : List ℕ) (e : Expr)
  | binE (l : Expr) (op : List ℕ) (r : Expr)
  | callE (callee : List ℕ) (args : List Expr)
  | memberE (obj : List ℕ) (name : List ℕ)
  | parenE (e : Expr)
deriving Repr

/-- Statement AST.  The three function-definition statement forms are
delegated by `emitStmt` to functions.go, a repository file not under
src/; no claim concerns them, so they are not modelled. -/
inductive Stmt where
  | exprS (e : Expr)
  | letS (name : List ℕ) (e : Expr)
  | retS (v : Expr)
  | exitS
  | passS
  | ifS (cond : Expr) (thenB : List Stmt) (elseB : List Stmt)
  | whileS (cond : Expr) (body : List Stmt)
  | forS (varName : List ℕ) (limit : Expr) (body : List Stmt)
deriving Repr

/-- Compile failure (Go panics in the emitter). -/
inductive CompileErr where
  | memberNotImplemented
  | unknownUnaryOp
  | unknownBinaryOp
deriving DecidableEq, Repr

/-- Go `emitBinaryOp`: operator string to opcode.  The byte lists are the
ASCII operator spellings, in source order: `+ - * / % == != < > <= >=
&& ||`. -/
def emitBinaryOp (c : Chunk) (op : List ℕ) : Except CompileErr Chunk :=
  if op = [43] then .ok (c.emit OP_ADD)
  else if op = [45] then .ok (c.emit OP_SUB)
  else if op = [42] then .ok (c.emit OP_MUL)
  else if op = [47] then .ok (c.emit OP_DIV)
  else if op = [37] then .ok (c.emit OP_MOD)
  else if op = [61, 61] then .ok (c.emit OP_EQ)
  else if op = [33, 61] then .ok (c.emit OP_NEQ)
  else if op = [60] then .ok (c.emit OP_LT)
  else if op = [62] then .ok (c.emit OP_GT)
  else if op = [60, 61] then .ok (c.emit OP_LE)
  else if op = [62, 61] then .ok (c.emit OP_GE)
  else if op = [38, 38] then .ok (c.emit OP_AND)
  else if op = [124, 124] then .ok (c.emit OP_OR)
  else .error .unknownBinaryOp

/-- ASCII bytes of the Go string literal appended to the loop variable
name to form the limit slot name in the `ForStmt` case. -/
def limitSuffix : List ℕ := [95, 108, 105, 109, 105, 116]

mutual

/-- Go `emitExpr`: lower one expression into the chunk.  Every case
follows the corresponding `case` of the source switch; `callE` emits the
argument expressions left to right and then the call opcode whose
operand is only the argument count — the callee field is ignored and no
identifier is pushed. -/
def emitExpr (c : Chunk) : Expr → Except CompileErr Chunk
  | .numE v =>
      let p := c.addConst (.num v)
      .ok ((p.1.emit OP_CONST).emitInt p.2)
  | .strE s =>
      let p := c.addConst (.str s)
      .ok ((p.1.emit OP_CONST).emitInt p.2)
  | .boolE b =>
      let p := c.addConst (.num (if b then .finite 1 else .finite 0))
      .ok ((p.1.emit OP_CONST).emitInt p.2)
  | .identE n =>
      let p := c.addConst (.str n)
      .ok ((p.1.emit OP_LOAD).emitInt p.2)
  | .assignE n e => do
      let c1 ← emitExpr c e
      let p := c1.addConst (.str n)
      .ok ((p.1.emit OP_STORE).emitInt p.2)
  | .unaryE op e => do
      let c1 ← emitExpr c e
      if op = [45] then
        let p := c1.addConst (.num (.finite (-1)))
        .ok (((p.1.emit OP_CONST).emitInt p.2).emit OP_MUL)
      else if op = [33] then .ok (c1.emit OP_NOT)
      else .error .unknownUnaryOp
  | .binE l op r => do
      let c1 ← emitExpr c l
      let c2 ← emitExpr c1 r
      emitBinaryOp c2 op
  | .callE _ args => do
      let c1 ← emitExprList c args
      .ok ((c1.emit OP_CALL).emitInt args.length)
  | .memberE _ _ => .error .memberNotImplemented
  | .parenE e => emitExpr c e

/-- The left-to-right argument loop of the `CallExpr` case. -/
def emitExprList (c : Chunk) : List Expr → Except CompileErr Chunk
  | [] => .ok c
  | e :: es => do
      let c1 ← emitExpr c e
      emitExprList c1 es

end

mutual

/-- Go `emitStmt`: lower one statement into the chunk, following the
source switch case by case (jump emission, placeholder offsets and
patching exactly as written there). -/
def emitStmt (c : Chunk) : Stmt → Except CompileErr Chunk
  | .exprS e => do
      let c1 ← emitExpr c e
      .ok (c1.emit OP_POP)
  | .letS n e => do
      let c1 ← emitExpr c e
      let p := c1.addConst (.str n)
      .ok ((p.1.emit OP_STORE).emitInt p.2)
  | .retS v => do
      let c1 ← emitExpr c v
      .ok (c1.emit OP_RET)
  | .exitS => .ok (c.emit OP_EXIT)
  | .passS => .ok c
  | .ifS cond thenB elseB => do
      let c1 ← emitExpr c cond
      let c2 := c1.emit OP_JMPF
      let jumpPos := c2.Code.length
      let c3 := c2.emitInt 0
      let c4 ← emitStmtList c3 thenB
      if 0 < elseB.length then
        let c5 := c4.emit OP_JMP
        let elseJump := c5.Code.length
        let c6 := c5.emitInt 0
        let c7 := patchJump c6 jumpPos
        let c8 ← emitStmtList c7 elseB
        .ok (patchJump c8 elseJump)
      else .ok (patchJump c4 jumpPos)
  | .whileS cond body => do
      let loopStart := c.Code.length
      let c1 ← emitExpr c cond
      let c2 := c1.emit OP_JMPF
      let exitPos := c2.Code.length
      let c3 := c2.emitInt 0
      let c4 ← emitStmtList c3 body
      let c5 := (c4.emit OP_JMP).emitInt loopStart
      .ok (patchJump c5 exitPos)
  | .forS vn limit body => do
      let c1 ← emitExpr c limit
      let pL := c1.addConst (.str (vn ++ limitSuffix))
      let limitSlot := pL.2
      let c3 := (pL.1.emit OP_STORE).emitInt limitSlot
      let pI := c3.addConst (.str vn)
      let iSlot := pI.2
      let c5 := pI.1.emit OP_CONST
      let pZ := c5.addConst (.num (.finite 0))
      let c7 := pZ.1.emitInt pZ.2
      let c8 := (c7.emit OP_STORE).emitInt iSlot
      let loopStart := c8.Code.length
      let c9 := ((((c8.emit OP_LOAD).emitInt iSlot).emit OP_LOAD).emitInt
        limitSlot).emit OP_GE
      let c10 := c9.emit OP_JMPF
      let exitPos := c10.Code.length
      let c11 := c10.emitInt 0
      let c12 ← emitStmtList c11 body
      let c13 := (c12.emit OP_LOAD).emitInt iSlot
      let c14 := c13.emit OP_CONST
      let pO := c14.addConst (.num (.finite 1))
      let c16 := (pO.1.emitInt pO.2).emit OP_ADD
      let c17 := (c16.emit OP_STORE).emitInt iSlot
      let c18 := (c17.emit OP_JMP).emitInt loopStart
      .ok (patchJump c18 exitPos)

/-- A statement block, emitted in order (the `for ... range` loops of the
source). -/
def emitStmtList (c : Chunk) : List Stmt → Except CompileErr Chunk
  | [] => .ok c
  | s :: ss => do
      let c1 ← emitStmt c s
      emitStmtList c1 ss

end

/-- The main-chunk part of Go `Emit`: lower the top-level statements into
a fresh chunk and append the implicit return.  (The subsequent module
encoding step `encodeModuleWithFunctions` lives in functions.go, absent
from src/, and is modelled separately in the binary-format section.) -/
def emitMain (prog : List Stmt) : Except CompileErr Chunk := do
  let c ← emitStmtList NewChunk prog
  .ok (c.emit OP_RET)

/-- Fresh VM state executing a compiled chunk with a given function
table (Go `New` + `Run` after loading). -/
def initState (c : Chunk) (funcs : List (List ℕ × List Value)) : VMState :=
  { constants := c.Constants, code := c.Code, ip := 0, sp := 0,
    stack := [], callStack := [], funcs := funcs }

/-! ## Generic helpers -/

instance {ε α : Type} [DecidableEq ε] [DecidableEq α] :
    DecidableEq (Except ε α) := fun a b =>
  match a, b with
  | .ok x, .ok y =>
      if h : x = y then .isTrue (by rw [h]) else
        .isFalse (by intro hh; cases hh; exact h rfl)
  | .error x, .error y =>
      if h : x = y then .isTrue (by rw [h]) else
        .isFalse (by intro hh; cases hh; exact h rfl)
  | .ok _, .error _ => .isFalse (by intro hh; cases hh)
  | .error _, .ok _ => .isFalse (by intro hh; cases hh)

theorem except_bind_ok {ε α β : Type} (x : α) (f : α → Except ε β) :
    (Except.ok x >>= f) = f x := rfl

theorem except_pure {ε α : Type} (x : α) :
    (pure x : Except ε α) = .ok x := rfl

theorem except_bind_error {ε α β : Type} (e : ε) (f : α → Except ε β) :
    ((Except.error e : Except ε α) >>= f) = .error e := rfl

theorem list_get_append_len {α : Type} (S : List α) (x : α) (r : List α) :
    (S ++ x :: r).get? S.length = some x := by
  induction S with
  | nil => rfl
  | cons a t ih => simpa using ih

theorem list_get_append_len_add {α : Type} (S r : List α) (k : ℕ) :
    (S ++ r).get? (S.length + k) = r.get? k := by
  induction S with
  | nil => simp
  | cons a t ih => simpa [Nat.succ_add] using ih

theorem list_take_append_le {α : Type} :
    ∀ (n : ℕ) (l1 l2 : List α), n ≤ l1.length →
      (l1 ++ l2).take n = l1.take n := by
  intro n l1
  induction l1 generalizing n with
  | nil =>
      intro l2 h
      have hn : n = 0 := by simpa using h
      simp [hn]
  | cons a t ih =>
      intro l2 h
      cases n with
      | zero => simp
      | succ m => simp only [List.cons_append, List.take_succ_cons]
                  rw [ih m l2 (by simpa using h)]

theorem list_drop_append_le {α : Type} :
    ∀ (n : ℕ) (l1 l2 : List α), n ≤ l1.length →
      (l1 ++ l2).drop n = l1.drop n ++ l2 := by
  intro n l1
  induction l1 generalizing n with
  | nil =>
      intro l2 h
      have hn : n = 0 := by simpa using h
      simp [hn]
  | cons a t ih =>
      intro l2 h
      cases n with
      | zero => simp
      | succ m => simp only [List.cons_append, List.drop_succ_cons]
                  exact ih m l2 (by simpa using h)

/-- Reading 4 bytes one position further into a one-longer buffer is the
same read. -/
theorem rdU32_cons (a : ℕ) (l : List ℕ) (p : ℕ) :
    rdU32 (a :: l) (p + 1) = rdU32 l p := by
  by_cases h : p + 4 ≤ l.length
  · rw [rdU32, rdU32, if_pos (by simp; omega), if_pos h]
    rfl
  · rw [rdU32, rdU32, if_neg (by simp; omega), if_neg h]

/-- Reading 4 bytes at the position where `u32le v` was written recovers
`v` modulo 2^32. -/
theorem rdU32_append (pre : List ℕ) (v : ℕ) (post : List ℕ) :
    rdU32 (pre ++ (u32le v ++ post)) pre.length = .ok (v % 4294967296) := by
  induction pre with
  | nil =>
      have harith : v % 256 + 256 * (v / 256 % 256) +
          65536 * (v / 65536 % 256) + 16777216 * (v / 16777216 % 256) =
          v % 4294967296 := by omega
      simp [rdU32, u32le]
      omega
  | cons a t ih =>
      simp only [List.cons_append, List.length_cons]
      rw [rdU32_cons]
      exact ih

/-- `vmReadInt` on a state whose `ip` points at a written `u32le v`
operand. -/
theorem vmReadInt_at (st : VMState) (pre : List ℕ) (v : ℕ) (post : List ℕ)
    (hcode : st.code = pre ++ (u32le v ++ post)) (hip : st.ip = pre.length) :
    vmReadInt st = .ok (v % 4294967296, { st with ip := st.ip + 4 }) := by
  have h : rdU32 st.code st.ip = .ok (v % 4294967296) := by
    rw [hcode, hip]; exact rdU32_append pre v post
  simp only [vmReadInt, h]
  rfl

/-- The argument-copy loop appends copies of the `k` stack values that
start at index `base + i`, and adds `k` to `sp`, when those indices are
within the physical stack. -/
theorem copyArgs_ok (base : ℕ) :
    ∀ (k i : ℕ) (st : VMState), base + i + k ≤ st.stack.length →
      copyArgs base i k st =
        .ok { st with stack := st.stack ++ ((st.stack.drop (base + i)).take k),
                      sp := st.sp + k } := by
  intro k
  induction k with
  | zero => intro i st _; simp [copyArgs]
  | succ m ih =>
      intro i st h
      have hlt : base + i < st.stack.length := by omega
      have hv : st.stack.get? (base + i) = some st.stack[base + i] := by
        simp [List.get?_eq_getElem?, List.getElem?_eq_getElem hlt]
      have hrec := ih (i + 1) (vmPush st st.stack[base + i])
        (by simp [vmPush]; omega)
      simp only [copyArgs, hv, hrec]
      have hdrop : st.stack.drop (base + i) =
          st.stack[base + i] :: st.stack.drop (base + i + 1) :=
        List.drop_eq_getElem_cons hlt
      have hdrop2 : (st.stack ++ [st.stack[base + i]]).drop (base + (i + 1)) =
          st.stack.drop (base + i + 1) ++ [st.stack[base + i]] := by
        rw [show base + (i + 1) = base + i + 1 from rfl]
        exact list_drop_append_le _ _ _ (by omega)
      have htake : (st.stack.drop (base + i + 1) ++
            [st.stack[base + i]]).take m =
          (st.stack.drop (base + i + 1)).take m := by
        refine list_take_append_le m _ _ ?_
        simp [List.length_drop]; omega
      have hsp : st.sp + 1 + m = st.sp + (m + 1) := by omega
      simp only [vmPush, hdrop2, htake, hdrop, List.take_succ_cons,
        List.append_assoc, List.cons_append, List.nil_append, hsp]

theorem list_take_append_len {α : Type} (S r : List α) :
    (S ++ r).take S.length = S := by
  induction S with
  | nil => rfl
  | cons a t ih => simp [ih]

/-- `vmPop` on a state whose stack and `sp` are in sync: pops the last
element. -/
theorem vmPop_snoc (st : VMState) (S : List Value) (v : Value)
    (h1 : st.stack = S ++ [v]) (h2 : st.sp = S.length + 1) :
    vmPop st = .ok (v, { st with sp := S.length, stack := S }) := by
  have hg : st.stack.get? (st.sp - 1) = some v := by
    rw [h1, h2]; simp [list_get_append_len S v []]
  have ht : st.stack.take (st.sp - 1) = S := by
    rw [h1, h2]; simp [list_take_append_len S [v]]
  simp only [vmPop, h2, Nat.add_sub_cancel] at hg ht ⊢
  simp [hg, ht, List.get?_eq_getElem?] at hg ⊢
  simp [hg, ht]

/-! ## Claim C8: arithmetic and equality opcode semantics -/

/-- A one-instruction VM state over an empty constant pool with the given
operand stack, used to exercise single opcodes. -/
def binopState (c : List ℕ) (s : List Value) : VMState :=
  { constants := [], code := c, ip := 0, sp := s.length, stack := s,
    callStack := [], funcs := [] }

/-- C8: executing the arithmetic and equality opcodes gives: 3 + 4
evaluates to 7.0; 7 % 3 evaluates to 1.0 (floating-point remainder);
1 / 0 evaluates to +Infinity (not an error); equality of two equal
strings yields 1.0; equality of a string and a number yields 0.0
(cross-kind equality is false, never a type error). -/
theorem claim_c8_arithmetic_semantics :
    step (binopState [OP_ADD] [.num (.finite 3), .num (.finite 4)]) =
      .ok { binopState [OP_ADD] [.num (.finite 7)] with ip := 1 } ∧
    step (binopState [OP_MOD] [.num (.finite 7), .num (.finite 3)]) =
      .ok { binopState [OP_MOD] [.num (.finite 1)] with ip := 1 } ∧
    step (binopState [OP_DIV] [.num (.finite 1), .num (.finite 0)]) =
      .ok { binopState [OP_DIV] [.num .inf] with ip := 1 } ∧
    step (binopState [OP_EQ] [.str [97], .str [97]]) =
      .ok { binopState [OP_EQ] [.num (.finite 1)] with ip := 1 } ∧
    step (binopState [OP_EQ] [.str [97], .num (.finite 1)]) =
      .ok { binopState [OP_EQ] [.num (.finite 0)] with ip := 1 } := by
  refine ⟨?_, ?_, by decide, by decide, by decide⟩
  · simp [binopState, step, OP_ADD, binNumOp, vmPop, vmPush,
      FloatVal.fadd]
    norm_num
  · simp [binopState, step, OP_MOD, binNumOp, vmPop, vmPush,
      FloatVal.fmod, FloatVal.ratTrunc]
    norm_num

/-! ## Claim C5: identifier occurrences and constant-pool slots -/

/-- C5 (code bug): emitting `let x = 1` followed by the expression
statement `x` (identifier bytes `[120]`) appends a fresh pool entry for
each occurrence of the name: the `let` stores to slot 1 while the later
load reads slot 2, whose pool entry is the name string itself.
`addConst` never reuses an entry by name (the `Names` map is never
consulted), so the same identifier does not resolve to the same slot. -/
theorem claim_c5_ident_slot_appended_per_occurrence :
    emitStmtList NewChunk
      [.letS [120] (.numE (.finite 1)), .exprS (.identE [120])] =
      .ok { Code := [OP_CONST, 0, 0, 0, 0, OP_STORE, 1, 0, 0, 0,
                     OP_LOAD, 2, 0, 0, 0, OP_POP],
            Constants := [.num (.finite 1), .str [120], .str [120]],
            Names := [] } := by decide

/-! ## Claim C1: counted for-loop -/

/-- The program `for i 3: (let y = 99)` (variable bytes: `i` = 105,
`y` = 121). -/
def forProgC1 : Stmt :=
  .forS [105] (.numE (.finite 3)) [.letS [121] (.numE (.finite 99))]

/-- The chunk the emitter produces for `forProgC1`. -/
def forChunkC1 : Chunk :=
  (emitStmt NewChunk forProgC1).toOption.getD NewChunk

/-- C1 (code bug): the emitted guard is `OP_GE` followed by `OP_JMPF 67`,
which jumps to the loop end when `i >= limit` is FALSE — the opposite of
the source's own `// if i >= limit: break` comment and of the claim.
Running the emitted chunk for `for i 3` finishes with the body never
executed: slot 5 (the body's target `y`) still holds the name string and
the induction slot 2 still holds 0.0, i.e. the body ran 0 times instead
of 3.  (The limit expression is emitted once, before the loop start, as
the code listing shows.) -/
theorem claim_c1_for_guard_inverted :
    emitStmt NewChunk forProgC1 = .ok forChunkC1 ∧
    forChunkC1.Code =
      [OP_CONST, 0, 0, 0, 0, OP_STORE, 1, 0, 0, 0,
       OP_CONST, 3, 0, 0, 0, OP_STORE, 2, 0, 0, 0,
       OP_LOAD, 2, 0, 0, 0, OP_LOAD, 1, 0, 0, 0, OP_GE,
       OP_JMPF, 67, 0, 0, 0,
       OP_CONST, 4, 0, 0, 0, OP_STORE, 5, 0, 0, 0,
       OP_LOAD, 2, 0, 0, 0, OP_CONST, 6, 0, 0, 0, OP_ADD,
       OP_STORE, 2, 0, 0, 0, OP_JMP, 20, 0, 0, 0] ∧
    run 40 (initState forChunkC1 []) = .done none
      { (initState forChunkC1 []) with
        ip := 67,
        constants := [.num (.finite 3), .num (.finite 3), .num (.finite 0),
          .num (.finite 0), .num (.finite 99), .str [121],
          .num (.finite 1)] } :=
  ⟨by decide, by decide, by decide⟩

/-! ## Claim C2: call/return symmetry -/

/-- Caller state for the C2 scenario: one extra value 9.0 below the
callee identifier 0.0; function 0 pushes the constant 7.0 and returns. -/
def c2Caller : VMState :=
  { constants := [], code := [OP_CALL, 0, 0, 0, 0], ip := 0, sp := 2,
    stack := [.num (.finite 9), .num (.finite 0)], callStack := [],
    funcs := [([OP_CONST, 0, 0, 0, 0, OP_RET], [.num (.finite 7)])] }

/-- C2 (code bug): calling function 0 with 0 arguments and returning
does NOT push the callee's return value 7.0: the run finishes with the
physical stack `[9.0]` (the callee's pop read the caller's slot 9.0 at
its local stack index and the truncation discarded the pushed 7.0),
while `sp` is 2 — one more than the physical depth.  The claim's
expected final stack `[9.0, 7.0]` is not produced, although `ip`, code
and constants are restored. -/
theorem claim_c2_call_return_asymmetric :
    run 10 c2Caller = .done none
      { c2Caller with ip := 5, stack := [.num (.finite 9)] } := by decide

/-! ## Claim C7: call transition and argument copying -/

/-- Caller state for the C7 counterexample: stack `[9.0, 5.0]`, calling
with one argument. -/
def c7State : VMState :=
  { constants := [], code := [], ip := 3, sp := 2,
    stack := [.num (.finite 9), .num (.finite 5)], callStack := [],
    funcs := [([OP_RET], [])] }

/-- C7 counterexample: the call transition with n = 1 on stack
`[9.0, 5.0]` appends a COPY of the argument (final physical stack
`[9.0, 5.0, 5.0]`), rather than leaving the shared stack unchanged with
only the logical base shifted (which would keep the stack `[9.0, 5.0]`).
The saved base is 1 = sp - n as claimed, but a copy is performed. -/
theorem claim_c7_counterexample :
    callFunction 0 1 c7State =
      .ok { c7State with
            code := [OP_RET],
            constants := [],
            ip := 0,
            sp := 1,
            stack := [.num (.finite 9), .num (.finite 5), .num (.finite 5)],
            callStack := [⟨3, 1, [], []⟩] } ∧
    [Value.num (.finite 9), .num (.finite 5), .num (.finite 5)] ≠
      [Value.num (.finite 9), .num (.finite 5)] := by decide

/-- A relational opcode on a synced stack ending in two Numbers pops
both and pushes the boolean-as-float result. -/
theorem binCmpOp_nums (g : FloatVal → FloatVal → Bool) (st : VMState)
    (S : List Value) (a b : FloatVal)
    (h1 : st.stack = S ++ [.num a, .num b]) (h2 : st.sp = S.length + 2) :
    binCmpOp g st =
      .ok { st with stack := S ++ [.num (boolToFloat (g a b))],
                    sp := S.length + 1 } := by
  have e1 : st.stack = (S ++ [Value.num a]) ++ [Value.num b] := by simp [h1]
  have e2 : st.sp = (S ++ [Value.num a]).length + 1 := by simp [h2]
  have p1 := vmPop_snoc st (S ++ [.num a]) (.num b) e1 e2
  have p2 := vmPop_snoc
    { st with sp := (S ++ [Value.num a]).length, stack := S ++ [Value.num a] }
    S (.num a) (by simp) (by simp)
  simp only [binCmpOp, p1, p2]
  simp [vmPush]

/-! ## Claim C9: logical operators evaluate both operands -/

/-- C9: `&&` and `||` do not short-circuit.  The emitter lowers a binary
`&&`/`||` to the left operand's code, then the right operand's code,
then the single and/or opcode (no jumps in between, so both operands are
always evaluated); the and/or opcode pops exactly the two operand values
and pushes one result. -/
theorem claim_c9_and_or_no_short_circuit :
    (∀ (c : Chunk) (l r : Expr),
      emitExpr c (.binE l [38, 38] r) = do
        let c1 ← emitExpr c l
        let c2 ← emitExpr c1 r
        .ok (c2.emit OP_AND)) ∧
    (∀ (c : Chunk) (l r : Expr),
      emitExpr c (.binE l [124, 124] r) = do
        let c1 ← emitExpr c l
        let c2 ← emitExpr c1 r
        .ok (c2.emit OP_OR)) ∧
    (∀ (k : List Value) (fr : List Frame) (fs : List (List ℕ × List Value))
        (S : List Value) (a b : FloatVal),
      step ⟨k, [OP_AND], 0, S.length + 2, S ++ [.num a, .num b], fr, fs⟩ =
        .ok ⟨k, [OP_AND], 1, S.length + 1,
          S ++ [.num (boolToFloat (!a.feq (.finite 0) && !b.feq (.finite 0)))],
          fr, fs⟩) ∧
    (∀ (k : List Value) (fr : List Frame) (fs : List (List ℕ × List Value))
        (S : List Value) (a b : FloatVal),
      step ⟨k, [OP_OR], 0, S.length + 2, S ++ [.num a, .num b], fr, fs⟩ =
        .ok ⟨k, [OP_OR], 1, S.length + 1,
          S ++ [.num (boolToFloat (!a.feq (.finite 0) || !b.feq (.finite 0)))],
          fr, fs⟩) := by
  have hband : ∀ c2 : Chunk, emitBinaryOp c2 [38, 38] = .ok (c2.emit OP_AND) :=
    fun _ => rfl
  have hbor : ∀ c2 : Chunk, emitBinaryOp c2 [124, 124] = .ok (c2.emit OP_OR) :=
    fun _ => rfl
  refine ⟨?_, ?_, ?_, ?_⟩
  · intro c l r
    cases h1 : emitExpr c l with
    | error e => simp [emitExpr, h1, except_bind_error]
    | ok c1 =>
        cases h2 : emitExpr c1 r with
        | error e => simp [emitExpr, h1, h2, except_bind_ok, except_bind_error]
        | ok c2 => simp [emitExpr, h1, h2, except_bind_ok, hband]
  · intro c l r
    cases h1 : emitExpr c l with
    | error e => simp [emitExpr, h1, except_bind_error]
    | ok c1 =>
        cases h2 : emitExpr c1 r with
        | error e => simp [emitExpr, h1, h2, except_bind_ok, except_bind_error]
        | ok c2 => simp [emitExpr, h1, h2, except_bind_ok, hbor]
  · intro k fr fs S a b
    have hfetch : step ⟨k, [OP_AND], 0, S.length + 2,
        S ++ [.num a, .num b], fr, fs⟩ =
        binCmpOp (fun x y => !x.feq (.finite 0) && !y.feq (.finite 0))
          ⟨k, [OP_AND], 1, S.length + 2, S ++ [.num a, .num b], fr, fs⟩ := rfl
    rw [hfetch, binCmpOp_nums _ _ S a b rfl rfl]
  · intro k fr fs S a b
    have hfetch : step ⟨k, [OP_OR], 0, S.length + 2,
        S ++ [.num a, .num b], fr, fs⟩ =
        binCmpOp (fun x y => !x.feq (.finite 0) || !y.feq (.finite 0))
          ⟨k, [OP_OR], 1, S.length + 2, S ++ [.num a, .num b], fr, fs⟩ := rfl
    rw [hfetch, binCmpOp_nums _ _ S a b rfl rfl]

/-! ## Claim C6: call operand carries only the argument count -/

/-- C6 counterexample: the emitted code for the call expression `f()`
(zero arguments) under an expression statement is `OP_CALL 0` then
`OP_POP` — no instruction pushes the callee identifier, so when the call
opcode executes the operand stack is empty and the VM's pop of the
"identifier" underflows.  The claim's assertion that the callee
identifier sits on top of the stack above the arguments is false for
the emitted code. -/
theorem claim_c6_counterexample :
    emitStmt NewChunk (.exprS (.callE [102] [])) =
      .ok ⟨[OP_CALL, 0, 0, 0, 0, OP_POP], [], []⟩ ∧
    run 5 (initState ⟨[OP_CALL, 0, 0, 0, 0, OP_POP], [], []⟩
        [([OP_RET], [])]) =
      .err .stackUnderflow := by decide

/-- C6 (amended): the VM side of the claim holds — the call opcode's
4-byte immediate carries only the argument count and the callee
identifier is popped from the stack top after the arguments; but the
emitter pushes only the argument values (left to right) and never the
callee identifier, so the value the VM pops is whatever the last
argument left on top (or an underflow when there are none). -/
theorem claim_c6_call_operand_semantics :
    (∀ (c : Chunk) (callee : List ℕ) (args : List Expr),
      emitExpr c (.callE callee args) = do
        let c1 ← emitExprList c args
        .ok ((c1.emit OP_CALL).emitInt args.length)) ∧
    (∀ (k : List Value) (fr : List Frame) (fs : List (List ℕ × List Value))
        (S : List Value) (f : FloatVal) (n : ℕ) (rest : List ℕ),
      step ⟨k, OP_CALL :: (u32le n ++ rest), 0, S.length + 1,
            S ++ [.num f], fr, fs⟩ =
        liftStep (callFunction f.toInt (n % 4294967296)
          ⟨k, OP_CALL :: (u32le n ++ rest), 5, S.length, S, fr, fs⟩)) := by
  refine ⟨?_, ?_⟩
  · intro c callee args
    cases h : emitExprList c args with
    | error e => simp [emitExpr, h, except_bind_error]
    | ok c1 => simp [emitExpr, h, except_bind_ok]
  · intro k fr fs S f n rest
    have hread := vmReadInt_at
      ⟨k, OP_CALL :: (u32le n ++ rest), 1, S.length + 1, S ++ [.num f], fr, fs⟩
      [OP_CALL] n rest rfl rfl
    have hpop := vmPop_snoc
      ⟨k, OP_CALL :: (u32le n ++ rest), 1 + 4, S.length + 1,
        S ++ [.num f], fr, fs⟩ S (.num f) rfl rfl
    have hfetch : step ⟨k, OP_CALL :: (u32le n ++ rest), 0, S.length + 1,
        S ++ [.num f], fr, fs⟩ =
        (match vmReadInt ⟨k, OP_CALL :: (u32le n ++ rest), 1, S.length + 1,
            S ++ [.num f], fr, fs⟩ with
         | .error e => .err e
         | .ok (argCount, st1) =>
            match vmPop st1 with
            | .error e => .err e
            | .ok (fv, st2) =>
                match fv with
                | .num g => liftStep (callFunction g.toInt argCount st2)
                | _ => .err .typeErr) := rfl
    rw [hfetch]
    simp only [hread, hpop]

/-! ## Claim C7 (amended): the call transition in general -/

/-- C7 (amended): on a call with `n` arguments from a synced caller
state, the saved stack base equals `sp - n`; the transition then appends
COPIES of the `n` argument values to the top of the shared physical
stack and resets `sp` to `n` (counting only the copies): the callee's
stack is not merely a base-shifted view of the caller's. -/
theorem claim_c7_call_transition
    (cons0 : List Value) (code0 : List ℕ) (ip0 sp0 : ℕ)
    (stack0 : List Value) (fr : List Frame)
    (fs : List (List ℕ × List Value)) (fnID n : ℕ)
    (fnCode : List ℕ) (fnConsts : List Value)
    (hfn : fs.get? fnID = some (fnCode, fnConsts))
    (hn : n ≤ sp0) (hsp : sp0 ≤ stack0.length) :
    callFunction fnID n ⟨cons0, code0, ip0, sp0, stack0, fr, fs⟩ =
      .ok ⟨fnConsts, fnCode, 0, n,
           stack0 ++ ((stack0.drop (sp0 - n)).take n),
           fr ++ [⟨ip0, sp0 - n, code0, cons0⟩], fs⟩ := by
  have h0 : (0 : ℤ) ≤ (fnID : ℤ) := Int.natCast_nonneg fnID
  have hcopy := copyArgs_ok (sp0 - n) n 0
    ⟨fnConsts, fnCode, 0, 0, stack0,
      fr ++ [⟨ip0, sp0 - n, code0, cons0⟩], fs⟩ (by simp; omega)
  simp only [callFunction, if_pos h0, Int.toNat_natCast, hfn, if_pos hn]
  simp only [Nat.add_zero] at hcopy
  rw [hcopy]
  simp

/-- Witness for `claim_c7_call_transition`: calling function 0 with one
argument from caller stack `[4.0]`. -/
theorem claim_c7_call_transition_witness :
    ([([OP_RET], [])] : List (List ℕ × List Value)).get? 0 =
        some ([OP_RET], []) ∧
    callFunction 0 1 ⟨[], [], 0, 1, [.num (.finite 4)], [], [([OP_RET], [])]⟩ =
      .ok ⟨[], [OP_RET], 0, 1, [.num (.finite 4), .num (.finite 4)],
           [⟨0, 0, [], []⟩], [([OP_RET], [])]⟩ :=
  ⟨by decide,
   claim_c7_call_transition [] [] 0 1 [.num (.finite 4)] [] [([OP_RET], [])]
     0 1 [OP_RET] [] rfl (by decide) (by decide)⟩

/-! ## Claim C10: store-slot writes the pool that load-slot and
push-constant read -/

/-- Executing `OP_STORE idx` at `ip` pops the top of a synced stack and
writes it into the active constant pool in place at `idx`. -/
theorem step_at_store (st : VMState) (pre post : List ℕ) (idx : ℕ)
    (S : List Value) (v : Value)
    (hcode : st.code = pre ++ OP_STORE :: (u32le idx ++ post))
    (hip : st.ip = pre.length)
    (hstk : st.stack = S ++ [v]) (hsp : st.sp = S.length + 1)
    (h32 : idx < 4294967296) (hidx : idx < st.constants.length) :
    step st = .ok { st with
                    constants := st.constants.set idx v,
                    ip := st.ip + 5,
                    sp := S.length,
                    stack := S } := by
  have hfetch : st.code.get? st.ip = some OP_STORE := by
    rw [hcode, hip]; exact list_get_append_len pre OP_STORE _
  have hread := vmReadInt_at { st with ip := st.ip + 1 }
      (pre ++ [OP_STORE]) idx post (by simp [hcode]) (by simp [hip])
  have hpop := vmPop_snoc { st with ip := st.ip + 1 + 4 } S v
      (by simp [hstk]) (by simp [hsp])
  simp only [step, hfetch, OP_STORE]
  simp only [hread, Nat.mod_eq_of_lt h32, hpop]
  simp only [if_pos hidx]

/-- Executing `OP_CONST idx` or `OP_LOAD idx` at `ip` pushes the value
currently held by the active constant pool at `idx` (the same pool
`OP_STORE` writes). -/
theorem step_at_push_slot (st : VMState) (op : ℕ) (pre post : List ℕ)
    (idx : ℕ) (v : Value)
    (hop : op = OP_CONST ∨ op = OP_LOAD)
    (hcode : st.code = pre ++ op :: (u32le idx ++ post))
    (hip : st.ip = pre.length) (h32 : idx < 4294967296)
    (hval : st.constants.get? idx = some v) :
    step st = .ok { st with
                    ip := st.ip + 5,
                    sp := st.sp + 1,
                    stack := st.stack ++ [v] } := by
  have hread := vmReadInt_at { st with ip := st.ip + 1 }
      (pre ++ [op]) idx post (by simp [hcode]) (by simp [hip])
  have harith : st.ip + 1 + 4 = st.ip + 5 := by omega
  rcases hop with hop | hop
  · have hfetch : st.code.get? st.ip = some OP_CONST := by
      rw [hcode, hip, hop]; exact list_get_append_len pre OP_CONST _
    simp only [step, hfetch, OP_CONST]
    simp only [hread, Nat.mod_eq_of_lt h32, hval]
    simp [vmPush, harith]
  · have hfetch : st.code.get? st.ip = some OP_LOAD := by
      rw [hcode, hip, hop]; exact list_get_append_len pre OP_LOAD _
    simp only [step, hfetch, OP_LOAD]
    simp only [hread, Nat.mod_eq_of_lt h32, hval]
    simp [vmPush, harith]

/-- C10: `OP_STORE idx` writes the popped value into the active constant
pool in place, and an immediately following `OP_LOAD idx` — or an
`OP_CONST idx` — pushes that stored value (both read the same mutable
pool), not the originally encoded constant. -/
theorem claim_c10_store_then_read_same_pool
    (k : List Value) (idx : ℕ) (v : Value) (S : List Value)
    (fr : List Frame) (fs : List (List ℕ × List Value))
    (hidx : idx < k.length) (h32 : idx < 4294967296) :
    (step ⟨k, OP_STORE :: (u32le idx ++ (OP_LOAD :: u32le idx)), 0,
        S.length + 1, S ++ [v], fr, fs⟩ =
      .ok ⟨k.set idx v, OP_STORE :: (u32le idx ++ (OP_LOAD :: u32le idx)),
        5, S.length, S, fr, fs⟩) ∧
    (step ⟨k.set idx v, OP_STORE :: (u32le idx ++ (OP_LOAD :: u32le idx)),
        5, S.length, S, fr, fs⟩ =
      .ok ⟨k.set idx v, OP_STORE :: (u32le idx ++ (OP_LOAD :: u32le idx)),
        10, S.length + 1, S ++ [v], fr, fs⟩) ∧
    (step ⟨k.set idx v, OP_STORE :: (u32le idx ++ (OP_CONST :: u32le idx)),
        5, S.length, S, fr, fs⟩ =
      .ok ⟨k.set idx v, OP_STORE :: (u32le idx ++ (OP_CONST :: u32le idx)),
        10, S.length + 1, S ++ [v], fr, fs⟩) := by
  have hset : (k.set idx v).get? idx = some v := by
    simp [List.get?_eq_getElem?, List.getElem?_set_self hidx]
  refine ⟨?_, ?_, ?_⟩
  · exact step_at_store _ [] (OP_LOAD :: u32le idx) idx S v rfl rfl rfl rfl
      h32 hidx
  · exact step_at_push_slot _ OP_LOAD (OP_STORE :: u32le idx) [] idx v
      (Or.inr rfl) (by simp [u32le]) (by simp [u32le]) h32 hset
  · exact step_at_push_slot _ OP_CONST (OP_STORE :: u32le idx) [] idx v
      (Or.inl rfl) (by simp [u32le]) (by simp [u32le]) h32 hset

/-- Witness for `claim_c10_store_then_read_same_pool` at pool `[int 0]`,
slot 0, stored value 2.0. -/
theorem claim_c10_witness :
    (0 : ℕ) < [Value.int 0].length ∧ (0 : ℕ) < 4294967296 ∧
    step ⟨[Value.int 0], OP_STORE :: (u32le 0 ++ (OP_LOAD :: u32le 0)), 0,
        1, [.num (.finite 2)], [], []⟩ =
      .ok ⟨[Value.num (.finite 2)],
        OP_STORE :: (u32le 0 ++ (OP_LOAD :: u32le 0)), 5, 0, [], [], []⟩ := by
  refine ⟨by decide, by decide, ?_⟩
  exact (claim_c10_store_then_read_same_pool [Value.int 0] 0
    (.num (.finite 2)) [] [] [] (by decide) (by decide)).1

/-! ## Binary module format (KBC v2)

The loader is embedded from `loadModule` (src/unnamed/part_001).  The
encoder `encodeModuleWithFunctions` and the lazy function-table reader
`loadFunction` live in repository files not present under src/; the
encoder below is modelled from the spec (format of section 6), and the
eager function-table decoding extends the loader's skip scan with the
same per-constant parsing the loader applies to the main chunk.

A float64 constant is carried as its 64-bit pattern (`cflt bits`): the
source stores `math.Float64frombits(bits)` and the encoder writes the
bits back, a bijection on bit patterns, so the wire layer never needs
floating-point arithmetic. -/

/-- A wire-format constant: kind 1 string, kind 2 float64 (by bit
pattern), kind 3 int32 (as the loader reads it: `int(Uint32)`). -/
inductive Const where
  | cstr (s : List ℕ)
  | cflt (bits : ℕ)
  | cint (v : ℕ)
deriving DecidableEq, Repr

/-- One function-table entry: constant pool plus code bytes. -/
structure FuncChunk where
  consts : List Const
  code : List ℕ
deriving DecidableEq, Repr

/-- A compiled module: function table plus the main chunk. -/
structure Module where
  funcs : List FuncChunk
  mainConsts : List Const
  mainCode : List ℕ
deriving DecidableEq, Repr

/-- Decode failure: `formatError` for the loader's explicit panics (bad
magic, unsupported version, unknown constant kind); `outOfRange` for Go
slice/index bounds panics on reads past the end of the buffer. -/
inductive DecodeErr where
  | formatError
  | outOfRange
deriving DecidableEq, Repr

/-- 8-byte little-endian encoding (Go `PutUint64`). -/
def u64le (v : ℕ) : List ℕ := u32le v ++ u32le (v / 4294967296)

/-- Read one byte (Go `code[p]`). -/
def dByte (b : List ℕ) (p : ℕ) : Except DecodeErr (ℕ × ℕ) :=
  match b.get? p with
  | some x => .ok (x, p + 1)
  | none => .error .outOfRange

/-- Read a 4-byte little-endian value (Go `Uint32(code[p:])`). -/
def dU32 (b : List ℕ) (p : ℕ) : Except DecodeErr (ℕ × ℕ) :=
  if p + 4 ≤ b.length then
    .ok (b.getD p 0 + 256 * b.getD (p + 1) 0 + 65536 * b.getD (p + 2) 0 +
      16777216 * b.getD (p + 3) 0, p + 4)
  else .error .outOfRange

/-- Read an 8-byte little-endian value (Go `Uint64(code[p:])`). -/
def dU64 (b : List ℕ) (p : ℕ) : Except DecodeErr (ℕ × ℕ) :=
  if p + 8 ≤ b.length then
    .ok (b.getD p 0 + 256 * b.getD (p + 1) 0 + 65536 * b.getD (p + 2) 0 +
      16777216 * b.getD (p + 3) 0 +
      4294967296 * (b.getD (p + 4) 0 + 256 * b.getD (p + 5) 0 +
        65536 * b.getD (p + 6) 0 + 16777216 * b.getD (p + 7) 0), p + 8)
  else .error .outOfRange

/-- Read `l` raw bytes (Go `code[p : p+l]`). -/
def dBytes (l : ℕ) (b : List ℕ) (p : ℕ) : Except DecodeErr (List ℕ × ℕ) :=
  if p + l ≤ b.length then .ok ((b.drop p).take l, p + l)
  else .error .outOfRange

/-- Go `loadModule`, header part: the 3-byte magic (ASCII `KBC`,
bytes 75 66 67; a shorter buffer is a Go slice panic) and the version
byte, which must be 2.  Returns the offset after the header. -/
def dHeader (b : List ℕ) : Except DecodeErr ℕ :=
  if 3 ≤ b.length then
    if b.take 3 = [75, 66, 67] then
      match dByte b 3 with
      | .error e => .error e
      | .ok (ver, _) => if ver = 2 then .ok 4 else .error .formatError
    else .error .formatError
  else .error .outOfRange

/-- The per-constant skip of the loader's function-table scan: read the
kind byte; for a string read its length and then advance past the
payload WITHOUT a bounds check (Go `offset += 4 + l`); floats and ints
advance by fixed sizes, also unchecked. -/
def skipConst (b : List ℕ) (p : ℕ) : Except DecodeErr ℕ := do
  let (kind, p1) ← dByte b p
  match kind with
  | 1 => do
      let (l, p2) ← dU32 b p1
      pure (p2 + l)
  | 2 => pure (p1 + 8)
  | 3 => pure (p1 + 4)
  | _ => .error .formatError

/-- The loader's inner loop skipping `n` function-chunk constants. -/
def skipConsts : ℕ → List ℕ → ℕ → Except DecodeErr ℕ
  | 0, _, p => .ok p
  | n + 1, b, p => do
      let p1 ← skipConst b p
      skipConsts n b p1

/-- The loader's outer loop skipping `n` function chunks: constant
count, constants, code length, then an unchecked advance past the code
(Go `offset += 4 + l`). -/
def skipFuncs : ℕ → List ℕ → ℕ → Except DecodeErr ℕ
  | 0, _, p => .ok p
  | n + 1, b, p => do
      let (cc, p1) ← dU32 b p
      let p2 ← skipConsts cc b p1
      let (l, p3) ← dU32 b p2
      skipFuncs n b (p3 + l)

/-- The loader's main-chunk constant parsing: kind byte, then payload
(string length + bytes with a bounds-checked slice, 8-byte float bits,
or 4-byte int); an unknown kind is the loader's explicit panic. -/
def decodeConst (b : List ℕ) (p : ℕ) : Except DecodeErr (Const × ℕ) := do
  let (kind, p1) ← dByte b p
  match kind with
  | 1 => do
      let (l, p2) ← dU32 b p1
      let (s, p3) ← dBytes l b p2
      pure (Const.cstr s, p3)
  | 2 => do
      let (bits, p2) ← dU64 b p1
      pure (Const.cflt bits, p2)
  | 3 => do
      let (v, p2) ← dU32 b p1
      pure (Const.cint v, p2)
  | _ => .error .formatError

/-- `n` constants parsed in order. -/
def decodeConsts : ℕ → List ℕ → ℕ → Except DecodeErr (List Const × ℕ)
  | 0, _, p => .ok ([], p)
  | n + 1, b, p => do
      let (c, p1) ← decodeConst b p
      let (cs, p2) ← decodeConsts n b p1
      pure (c :: cs, p2)

/-- Go `loadModule` on a byte buffer: header, skip scan over the
function table, then the main chunk's constants and code (the final
code slice is bounds-checked).  Returns the main chunk and the final
offset. -/
def loadModuleAux (b : List ℕ) :
    Except DecodeErr ((List Const × List ℕ) × ℕ) := do
  let p0 ← dHeader b
  let (fnCount, p1) ← dU32 b p0
  let p2 ← skipFuncs fnCount b p1
  let (cCount, p3) ← dU32 b p2
  let (cs, p4) ← decodeConsts cCount b p3
  let (codeLen, p5) ← dU32 b p4
  let (code, p6) ← dBytes codeLen b p5
  pure ((cs, code), p6)

/-- Go `loadModule`: the main chunk the VM is initialized with. -/
def loadModule (b : List ℕ) : Except DecodeErr (List Const × List ℕ) :=
  (loadModuleAux b).map (fun r => r.1)

/-- Eager function-table parsing: the loader's skip scan with each
function's constants and code actually decoded (the per-constant format
is the one the loader applies to the main chunk; the lazy reader
`loadFunction` is not under src/, so this part is modelled from the
spec: each entry is `{constants, code}` in table order). -/
def decodeFuncs : ℕ → List ℕ → ℕ → Except DecodeErr (List FuncChunk × ℕ)
  | 0, _, p => .ok ([], p)
  | n + 1, b, p => do
      let (cc, p1) ← dU32 b p
      let (cs, p2) ← decodeConsts cc b p1
      let (l, p3) ← dU32 b p2
      let (code, p4) ← dBytes l b p3
      let (rest, p5) ← decodeFuncs n b p4
      pure (FuncChunk.mk cs code :: rest, p5)

/-- Full decoding of a module: header, function table, main chunk. -/
def decodeModuleAux (b : List ℕ) : Except DecodeErr (Module × ℕ) := do
  let p0 ← dHeader b
  let (fnCount, p1) ← dU32 b p0
  let (fns, p2) ← decodeFuncs fnCount b p1
  let (cCount, p3) ← dU32 b p2
  let (cs, p4) ← decodeConsts cCount b p3
  let (codeLen, p5) ← dU32 b p4
  let (code, p6) ← dBytes codeLen b p5
  pure (Module.mk fns cs code, p6)

/-- Full decoding, dropping the final offset. -/
def decodeModule (b : List ℕ) : Except DecodeErr Module :=
  (decodeModuleAux b).map (fun r => r.1)

/-- Modelled from the spec: one constant of section 6 —
`kind(1 byte) + payload`; kind 1 string (`len:u32` + bytes), kind 2
float64 (8 bytes), kind 3 int32 (4 bytes). -/
def encodeConst : Const → List ℕ
  | .cstr s => 1 :: (u32le s.length ++ s)
  | .cflt bits => 2 :: u64le bits
  | .cint v => 3 :: u32le v

/-- Constants in pool order. -/
def encodeConstList : List Const → List ℕ
  | [] => []
  | c :: cs => encodeConst c ++ encodeConstList cs

/-- Modelled from the spec: one chunk region — `const_count:u32`,
constants, `code_len:u32`, code bytes. -/
def encodeChunkBytes (cs : List Const) (code : List ℕ) : List ℕ :=
  u32le cs.length ++ (encodeConstList cs ++ (u32le code.length ++ code))

/-- Function-table entries in order. -/
def encodeFuncs : List FuncChunk → List ℕ
  | [] => []
  | f :: fsr => encodeChunkBytes f.consts f.code ++ encodeFuncs fsr

/-- Modelled from the spec: `encodeModuleWithFunctions` (functions.go is
not under src/) — magic `KBC`, version 2, `fn_count:u32`, function
chunks, then the main chunk. -/
def encodeModule (m : Module) : List ℕ :=
  [75, 66, 67, 2] ++
    (u32le m.funcs.length ++
      (encodeFuncs m.funcs ++ encodeChunkBytes m.mainConsts m.mainCode))

/-- The length/count fields of a constant fit in their wire width. -/
def wfConst : Const → Prop
  | .cstr s => s.length < 4294967296
  | .cflt bits => bits < 18446744073709551616
  | .cint v => v < 4294967296

instance : DecidablePred wfConst := fun c => by
  cases c <;> simp [wfConst] <;> infer_instance

/-- The count/length fields of a chunk fit in 32 bits and its constants
are well-formed. -/
def wfChunk (cs : List Const) (code : List ℕ) : Prop :=
  cs.length < 4294967296 ∧ (∀ c ∈ cs, wfConst c) ∧
    code.length < 4294967296

/-- Every count and length of the module fits its wire width. -/
def wfModule (m : Module) : Prop :=
  m.funcs.length < 4294967296 ∧
    (∀ f ∈ m.funcs, wfChunk f.consts f.code) ∧
    wfChunk m.mainConsts m.mainCode

instance (cs : List Const) (code : List ℕ) : Decidable (wfChunk cs code) := by
  unfold wfChunk; infer_instance

instance (m : Module) : Decidable (wfModule m) := by
  unfold wfModule
  have : DecidablePred (fun f : FuncChunk => wfChunk f.consts f.code) :=
    fun f => by infer_instance
  infer_instance

/-! ### Reading back what the encoder wrote -/

theorem dByte_append (pre : List ℕ) (x : ℕ) (post : List ℕ) :
    dByte (pre ++ x :: post) pre.length = .ok (x, pre.length + 1) := by
  have h := list_get_append_len pre x post
  rw [dByte, h]

theorem dU32_cons (a : ℕ) (l : List ℕ) (p : ℕ) :
    dU32 (a :: l) (p + 1) =
      (match dU32 l p with
       | .ok r => .ok (r.1, r.2 + 1)
       | .error e => .error e) := by
  by_cases h : p + 4 ≤ l.length
  · rw [dU32, dU32, if_pos (by simp; omega), if_pos h]
    rfl
  · rw [dU32, dU32, if_neg (by simp; omega), if_neg h]

theorem dU32_append (pre : List ℕ) (v : ℕ) (post : List ℕ)
    (hv : v < 4294967296) :
    dU32 (pre ++ (u32le v ++ post)) pre.length = .ok (v, pre.length + 4) := by
  induction pre with
  | nil =>
      simp [dU32, u32le]
      omega
  | cons a t ih =>
      simp only [List.cons_append, List.length_cons]
      rw [dU32_cons, ih]

theorem dU64_cons (a : ℕ) (l : List ℕ) (p : ℕ) :
    dU64 (a :: l) (p + 1) =
      (match dU64 l p with
       | .ok r => .ok (r.1, r.2 + 1)
       | .error e => .error e) := by
  by_cases h : p + 8 ≤ l.length
  · rw [dU64, dU64, if_pos (by simp; omega), if_pos h]
    rfl
  · rw [dU64, dU64, if_neg (by simp; omega), if_neg h]

theorem dU64_append (pre : List ℕ) (v : ℕ) (post : List ℕ)
    (hv : v < 18446744073709551616) :
    dU64 (pre ++ (u64le v ++ post)) pre.length = .ok (v, pre.length + 8) := by
  induction pre with
  | nil =>
      simp [dU64, u64le, u32le]
      omega
  | cons a t ih =>
      simp only [List.cons_append, List.length_cons]
      rw [dU64_cons, ih]

theorem dBytes_append (pre s post : List ℕ) :
    dBytes s.length (pre ++ (s ++ post)) pre.length =
      .ok (s, pre.length + s.length) := by
  have hlen : pre.length + s.length ≤ (pre ++ (s ++ post)).length := by
    simp
  have hdrop : (pre ++ (s ++ post)).drop pre.length = s ++ post :=
    List.drop_left pre (s ++ post)
  simp [dBytes, hlen, hdrop, list_take_append_len]

theorem dByte_at (b : List ℕ) (p : ℕ) (pre : List ℕ) (x : ℕ)
    (post : List ℕ) (hb : b = pre ++ x :: post) (hp : p = pre.length) :
    dByte b p = .ok (x, p + 1) := by
  subst hb; subst hp; exact dByte_append pre x post

theorem dU32_at (b : List ℕ) (p : ℕ) (pre post : List ℕ) (v : ℕ)
    (hb : b = pre ++ (u32le v ++ post)) (hp : p = pre.length)
    (hv : v < 4294967296) :
    dU32 b p = .ok (v, p + 4) := by
  subst hb; subst hp; exact dU32_append pre v post hv

theorem dU64_at (b : List ℕ) (p : ℕ) (pre post : List ℕ) (v : ℕ)
    (hb : b = pre ++ (u64le v ++ post)) (hp : p = pre.length)
    (hv : v < 18446744073709551616) :
    dU64 b p = .ok (v, p + 8) := by
  subst hb; subst hp; exact dU64_append pre v post hv

theorem dBytes_at (b : List ℕ) (p l : ℕ) (pre s post : List ℕ)
    (hb : b = pre ++ (s ++ post)) (hp : p = pre.length)
    (hl : l = s.length) :
    dBytes l b p = .ok (s, p + l) := by
  subst hb; subst hp; subst hl; exact dBytes_append pre s post

/-- The skip scan advances over one encoded constant by exactly its
encoded length. -/
theorem skipConst_at (b : List ℕ) (p : ℕ) (c : Const) (pre post : List ℕ)
    (hb : b = pre ++ (encodeConst c ++ post)) (hp : p = pre.length)
    (hwf : wfConst c) :
    skipConst b p = .ok (p + (encodeConst c).length) := by
  cases c with
  | cstr s =>
      have hwf' : s.length < 4294967296 := hwf
      have h1 : dByte b p = .ok (1, p + 1) :=
        dByte_at b p pre 1 ((u32le s.length ++ s) ++ post)
          (by simp [hb, encodeConst]) hp
      have h2 : dU32 b (p + 1) = .ok (s.length, p + 1 + 4) :=
        dU32_at b (p + 1) (pre ++ [1]) (s ++ post) s.length
          (by simp [hb, encodeConst]) (by simp [hp]) hwf'
      simp only [skipConst, h1, except_bind_ok, h2, except_pure]
      simp [encodeConst, u32le]
      omega
  | cflt bits =>
      have h1 : dByte b p = .ok (2, p + 1) :=
        dByte_at b p pre 2 (u64le bits ++ post)
          (by simp [hb, encodeConst]) hp
      simp only [skipConst, h1, except_bind_ok, except_pure]
      simp [encodeConst, u64le, u32le]
  | cint v =>
      have h1 : dByte b p = .ok (3, p + 1) :=
        dByte_at b p pre 3 (u32le v ++ post)
          (by simp [hb, encodeConst]) hp
      simp only [skipConst, h1, except_bind_ok, except_pure]
      simp [encodeConst, u32le]

/-- The skip scan advances over an encoded constant list by its encoded
length. -/
theorem skipConsts_at :
    ∀ (cs : List Const) (b : List ℕ) (p : ℕ) (pre post : List ℕ),
      b = pre ++ (encodeConstList cs ++ post) → p = pre.length →
      (∀ c ∈ cs, wfConst c) →
      skipConsts cs.length b p = .ok (p + (encodeConstList cs).length) := by
  intro cs
  induction cs with
  | nil =>
      intro b p pre post hb hp hwf
      simp [skipConsts, encodeConstList]
  | cons c cs ih =>
      intro b p pre post hb hp hwf
      have h1 : skipConst b p = .ok (p + (encodeConst c).length) :=
        skipConst_at b p c pre (encodeConstList cs ++ post)
          (by simp [hb, encodeConstList]) hp (hwf c (by simp))
      have h2 : skipConsts cs.length b (p + (encodeConst c).length) =
          .ok (p + (encodeConst c).length + (encodeConstList cs).length) :=
        ih b (p + (encodeConst c).length) (pre ++ encodeConst c) post
          (by simp [hb, encodeConstList]) (by simp [hp])
          (fun x hx => hwf x (by simp [hx]))
      simp only [List.length_cons, skipConsts, h1, except_bind_ok, h2]
      simp [encodeConstList]
      omega

/-- The skip scan advances over the encoded function table by its
encoded length. -/
theorem skipFuncs_at :
    ∀ (fschunks : List FuncChunk) (b : List ℕ) (p : ℕ) (pre post : List ℕ),
      b = pre ++ (encodeFuncs fschunks ++ post) → p = pre.length →
      (∀ f ∈ fschunks, wfChunk f.consts f.code) →
      skipFuncs fschunks.length b p =
        .ok (p + (encodeFuncs fschunks).length) := by
  intro fschunks
  induction fschunks with
  | nil =>
      intro b p pre post hb hp hwf
      simp [skipFuncs, encodeFuncs]
  | cons f fsr ih =>
      intro b p pre post hb hp hwf
      obtain ⟨hwc, hwcs, hwl⟩ := hwf f (by simp)
      have h1 : dU32 b p = .ok (f.consts.length, p + 4) :=
        dU32_at b p pre
          (encodeConstList f.consts ++
            ((u32le f.code.length ++ f.code) ++ (encodeFuncs fsr ++ post)))
          f.consts.length
          (by simp [hb, encodeFuncs, encodeChunkBytes]) hp hwc
      have h2 : skipConsts f.consts.length b (p + 4) =
          .ok (p + 4 + (encodeConstList f.consts).length) :=
        skipConsts_at f.consts b (p + 4) (pre ++ u32le f.consts.length)
          ((u32le f.code.length ++ f.code) ++ (encodeFuncs fsr ++ post))
          (by simp [hb, encodeFuncs, encodeChunkBytes]) (by simp [hp, u32le])
          hwcs
      have h3 : dU32 b (p + 4 + (encodeConstList f.consts).length) =
          .ok (f.code.length, p + 4 + (encodeConstList f.consts).length + 4) :=
        dU32_at b _
          ((pre ++ u32le f.consts.length) ++ encodeConstList f.consts)
          (f.code ++ (encodeFuncs fsr ++ post)) f.code.length
          (by simp [hb, encodeFuncs, encodeChunkBytes])
          (by simp [hp, u32le]; omega) hwl
      have h4 : skipFuncs fsr.length b
          (p + 4 + (encodeConstList f.consts).length + 4 + f.code.length) =
          .ok (p + 4 + (encodeConstList f.consts).length + 4 + f.code.length +
            (encodeFuncs fsr).length) :=
        ih b _
          (((pre ++ u32le f.consts.length) ++ encodeConstList f.consts) ++
            (u32le f.code.length ++ f.code)) post
          (by simp [hb, encodeFuncs, encodeChunkBytes])
          (by simp [hp, u32le]; omega) (fun x hx => hwf x (by simp [hx]))
      simp only [List.length_cons, skipFuncs, h1, except_bind_ok, h2, h3, h4]
      simp [encodeFuncs, encodeChunkBytes, u32le]
      omega

/-- Parsing one encoded constant recovers it and advances by its encoded
length. -/
theorem decodeConst_at (b : List ℕ) (p : ℕ) (c : Const) (pre post : List ℕ)
    (hb : b = pre ++ (encodeConst c ++ post)) (hp : p = pre.length)
    (hwf : wfConst c) :
    decodeConst b p = .ok (c, p + (encodeConst c).length) := by
  cases c with
  | cstr s =>
      have hwf' : s.length < 4294967296 := hwf
      have h1 : dByte b p = .ok (1, p + 1) :=
        dByte_at b p pre 1 ((u32le s.length ++ s) ++ post)
          (by simp [hb, encodeConst]) hp
      have h2 : dU32 b (p + 1) = .ok (s.length, p + 1 + 4) :=
        dU32_at b (p + 1) (pre ++ [1]) (s ++ post) s.length
          (by simp [hb, encodeConst]) (by simp [hp]) hwf'
      have h3 : dBytes s.length b (p + 1 + 4) = .ok (s, p + 1 + 4 + s.length) :=
        dBytes_at b (p + 1 + 4) s.length ((pre ++ [1]) ++ u32le s.length)
          s post (by simp [hb, encodeConst]) (by simp [hp, u32le]) rfl
      simp only [decodeConst, h1, except_bind_ok, h2, h3, except_pure]
      simp [encodeConst, u32le]
      omega
  | cflt bits =>
      have h1 : dByte b p = .ok (2, p + 1) :=
        dByte_at b p pre 2 (u64le bits ++ post)
          (by simp [hb, encodeConst]) hp
      have h2 : dU64 b (p + 1) = .ok (bits, p + 1 + 8) :=
        dU64_at b (p + 1) (pre ++ [2]) post bits
          (by simp [hb, encodeConst]) (by simp [hp]) hwf
      simp only [decodeConst, h1, except_bind_ok, h2, except_pure]
      simp [encodeConst, u64le, u32le]
  | cint v =>
      have h1 : dByte b p = .ok (3, p + 1) :=
        dByte_at b p pre 3 (u32le v ++ post)
          (by simp [hb, encodeConst]) hp
      have h2 : dU32 b (p + 1) = .ok (v, p + 1 + 4) :=
        dU32_at b (p + 1) (pre ++ [3]) post v
          (by simp [hb, encodeConst]) (by simp [hp]) hwf
      simp only [decodeConst, h1, except_bind_ok, h2, except_pure]
      simp [encodeConst, u32le]

/-- Parsing an encoded constant list recovers it in order. -/
theorem decodeConsts_at :
    ∀ (cs : List Const) (b : List ℕ) (p : ℕ) (pre post : List ℕ),
      b = pre ++ (encodeConstList cs ++ post) → p = pre.length →
      (∀ c ∈ cs, wfConst c) →
      decodeConsts cs.length b p =
        .ok (cs, p + (encodeConstList cs).length) := by
  intro cs
  induction cs with
  | nil =>
      intro b p pre post hb hp hwf
      simp [decodeConsts, encodeConstList]
  | cons c cs ih =>
      intro b p pre post hb hp hwf
      have h1 : decodeConst b p = .ok (c, p + (encodeConst c).length) :=
        decodeConst_at b p c pre (encodeConstList cs ++ post)
          (by simp [hb, encodeConstList]) hp (hwf c (by simp))
      have h2 : decodeConsts cs.length b (p + (encodeConst c).length) =
          .ok (cs, p + (encodeConst c).length + (encodeConstList cs).length) :=
        ih b (p + (encodeConst c).length) (pre ++ encodeConst c) post
          (by simp [hb, encodeConstList]) (by simp [hp])
          (fun x hx => hwf x (by simp [hx]))
      simp only [List.length_cons, decodeConsts, h1, except_bind_ok, h2,
        except_pure]
      simp [encodeConstList]
      omega

/-- Parsing the encoded function table recovers it in order. -/
theorem decodeFuncs_at :
    ∀ (fschunks : List FuncChunk) (b : List ℕ) (p : ℕ) (pre post : List ℕ),
      b = pre ++ (encodeFuncs fschunks ++ post) → p = pre.length →
      (∀ f ∈ fschunks, wfChunk f.consts f.code) →
      decodeFuncs fschunks.length b p =
        .ok (fschunks, p + (encodeFuncs fschunks).length) := by
  intro fschunks
  induction fschunks with
  | nil =>
      intro b p pre post hb hp hwf
      simp [decodeFuncs, encodeFuncs]
  | cons f fsr ih =>
      intro b p pre post hb hp hwf
      obtain ⟨hwc, hwcs, hwl⟩ := hwf f (by simp)
      have h1 : dU32 b p = .ok (f.consts.length, p + 4) :=
        dU32_at b p pre
          (encodeConstList f.consts ++
            ((u32le f.code.length ++ f.code) ++ (encodeFuncs fsr ++ post)))
          f.consts.length
          (by simp [hb, encodeFuncs, encodeChunkBytes]) hp hwc
      have h2 : decodeConsts f.consts.length b (p + 4) =
          .ok (f.consts, p + 4 + (encodeConstList f.consts).length) :=
        decodeConsts_at f.consts b (p + 4) (pre ++ u32le f.consts.length)
          ((u32le f.code.length ++ f.code) ++ (encodeFuncs fsr ++ post))
          (by simp [hb, encodeFuncs, encodeChunkBytes]) (by simp [hp, u32le])
          hwcs
      have h3 : dU32 b (p + 4 + (encodeConstList f.consts).length) =
          .ok (f.code.length, p + 4 + (encodeConstList f.consts).length + 4) :=
        dU32_at b _
          ((pre ++ u32le f.consts.length) ++ encodeConstList f.consts)
          (f.code ++ (encodeFuncs fsr ++ post)) f.code.length
          (by simp [hb, encodeFuncs, encodeChunkBytes])
          (by simp [hp, u32le]; omega) hwl
      have h4 : dBytes f.code.length b
          (p + 4 + (encodeConstList f.consts).length + 4) =
          .ok (f.code,
            p + 4 + (encodeConstList f.consts).length + 4 + f.code.length) :=
        dBytes_at b _ f.code.length
          (((pre ++ u32le f.consts.length) ++ encodeConstList f.consts) ++
            u32le f.code.length)
          f.code (encodeFuncs fsr ++ post)
          (by simp [hb, encodeFuncs, encodeChunkBytes])
          (by simp [hp, u32le]; omega) rfl
      have h5 : decodeFuncs fsr.length b
          (p + 4 + (encodeConstList f.consts).length + 4 + f.code.length) =
          .ok (fsr, p + 4 + (encodeConstList f.consts).length + 4 +
            f.code.length + (encodeFuncs fsr).length) :=
        ih b _
          (((pre ++ u32le f.consts.length) ++ encodeConstList f.consts) ++
            (u32le f.code.length ++ f.code)) post
          (by simp [hb, encodeFuncs, encodeChunkBytes])
          (by simp [hp, u32le]; omega) (fun x hx => hwf x (by simp [hx]))
      simp only [List.length_cons, decodeFuncs, h1, except_bind_ok, h2, h3,
        h4, h5, except_pure]
      simp [encodeFuncs, encodeChunkBytes, u32le]
      omega

/-- The header of an encoded module parses to offset 4. -/
theorem dHeader_encode (rest : List ℕ) :
    dHeader ([75, 66, 67, 2] ++ rest) = .ok 4 := by
  have h : dByte (75 :: 66 :: 67 :: 2 :: rest) 3 = .ok (2, 4) := rfl
  simp [dHeader, h]

/-- The source loader accepts an encoded well-formed module, returns its
main chunk, and its final offset is exactly the buffer length. -/
theorem loadModuleAux_encode (m : Module) (hm : wfModule m) :
    loadModuleAux (encodeModule m) =
      .ok ((m.mainConsts, m.mainCode), (encodeModule m).length) := by
  obtain ⟨hfc, hfs, hcc, hcs, hcl⟩ := hm
  have hb : encodeModule m = [75, 66, 67, 2] ++
      (u32le m.funcs.length ++
        (encodeFuncs m.funcs ++
          encodeChunkBytes m.mainConsts m.mainCode)) := rfl
  have h0 : dHeader (encodeModule m) = .ok 4 := by
    rw [hb]; exact dHeader_encode _
  have h1 : dU32 (encodeModule m) 4 = .ok (m.funcs.length, 4 + 4) :=
    dU32_at _ 4 [75, 66, 67, 2]
      (encodeFuncs m.funcs ++ encodeChunkBytes m.mainConsts m.mainCode)
      m.funcs.length (by simp [hb]) (by simp) hfc
  have h2 : skipFuncs m.funcs.length (encodeModule m) (4 + 4) =
      .ok (4 + 4 + (encodeFuncs m.funcs).length) :=
    skipFuncs_at m.funcs _ (4 + 4) ([75, 66, 67, 2] ++ u32le m.funcs.length)
      (encodeChunkBytes m.mainConsts m.mainCode)
      (by simp [hb]) (by simp [u32le]) hfs
  have h3 : dU32 (encodeModule m) (4 + 4 + (encodeFuncs m.funcs).length) =
      .ok (m.mainConsts.length,
        4 + 4 + (encodeFuncs m.funcs).length + 4) :=
    dU32_at _ _
      (([75, 66, 67, 2] ++ u32le m.funcs.length) ++ encodeFuncs m.funcs)
      (encodeConstList m.mainConsts ++
        (u32le m.mainCode.length ++ m.mainCode))
      m.mainConsts.length
      (by simp [hb, encodeChunkBytes]) (by simp [u32le]; omega) hcc
  have h4 : decodeConsts m.mainConsts.length (encodeModule m)
      (4 + 4 + (encodeFuncs m.funcs).length + 4) =
      .ok (m.mainConsts, 4 + 4 + (encodeFuncs m.funcs).length + 4 +
        (encodeConstList m.mainConsts).length) :=
    decodeConsts_at m.mainConsts _ _
      ((([75, 66, 67, 2] ++ u32le m.funcs.length) ++ encodeFuncs m.funcs) ++
        u32le m.mainConsts.length)
      (u32le m.mainCode.length ++ m.mainCode)
      (by simp [hb, encodeChunkBytes]) (by simp [u32le]; omega) hcs
  have h5 : dU32 (encodeModule m)
      (4 + 4 + (encodeFuncs m.funcs).length + 4 +
        (encodeConstList m.mainConsts).length) =
      .ok (m.mainCode.length,
        4 + 4 + (encodeFuncs m.funcs).length + 4 +
          (encodeConstList m.mainConsts).length + 4) :=
    dU32_at _ _
      (((([75, 66, 67, 2] ++ u32le m.funcs.length) ++ encodeFuncs m.funcs) ++
        u32le m.mainConsts.length) ++ encodeConstList m.mainConsts)
      m.mainCode m.mainCode.length
      (by simp [hb, encodeChunkBytes]) (by simp [u32le]; omega) hcl
  have h6 : dBytes m.mainCode.length (encodeModule m)
      (4 + 4 + (encodeFuncs m.funcs).length + 4 +
        (encodeConstList m.mainConsts).length + 4) =
      .ok (m.mainCode,
        4 + 4 + (encodeFuncs m.funcs).length + 4 +
          (encodeConstList m.mainConsts).length + 4 + m.mainCode.length) :=
    dBytes_at _ _ _
      ((((([75, 66, 67, 2] ++ u32le m.funcs.length) ++ encodeFuncs m.funcs) ++
        u32le m.mainConsts.length) ++ encodeConstList m.mainConsts) ++
        u32le m.mainCode.length)
      m.mainCode []
      (by simp [hb, encodeChunkBytes]) (by simp [u32le]; omega) rfl
  simp only [loadModuleAux, h0, h1, h2, h3, h4, h5, h6, except_bind_ok,
    except_pure]
  simp [hb, encodeChunkBytes, u32le]
  omega

/-- Full decoding of an encoded well-formed module recovers the module,
consuming exactly the whole buffer. -/
theorem decodeModuleAux_encode (m : Module) (hm : wfModule m) :
    decodeModuleAux (encodeModule m) =
      .ok (m, (encodeModule m).length) := by
  obtain ⟨hfc, hfs, hcc, hcs, hcl⟩ := hm
  have hb : encodeModule m = [75, 66, 67, 2] ++
      (u32le m.funcs.length ++
        (encodeFuncs m.funcs ++
          encodeChunkBytes m.mainConsts m.mainCode)) := rfl
  have h0 : dHeader (encodeModule m) = .ok 4 := by
    rw [hb]; exact dHeader_encode _
  have h1 : dU32 (encodeModule m) 4 = .ok (m.funcs.length, 4 + 4) :=
    dU32_at _ 4 [75, 66, 67, 2]
      (encodeFuncs m.funcs ++ encodeChunkBytes m.mainConsts m.mainCode)
      m.funcs.length (by simp [hb]) (by simp) hfc
  have h2 : decodeFuncs m.funcs.length (encodeModule m) (4 + 4) =
      .ok (m.funcs, 4 + 4 + (encodeFuncs m.funcs).length) :=
    decodeFuncs_at m.funcs _ (4 + 4)
      ([75, 66, 67, 2] ++ u32le m.funcs.length)
      (encodeChunkBytes m.mainConsts m.mainCode)
      (by simp [hb]) (by simp [u32le]) hfs
  have h3 : dU32 (encodeModule m) (4 + 4 + (encodeFuncs m.funcs).length) =
      .ok (m.mainConsts.length,
        4 + 4 + (encodeFuncs m.funcs).length + 4) :=
    dU32_at _ _
      (([75, 66, 67, 2] ++ u32le m.funcs.length) ++ encodeFuncs m.funcs)
      (encodeConstList m.mainConsts ++
        (u32le m.mainCode.length ++ m.mainCode))
      m.mainConsts.length
      (by simp [hb, encodeChunkBytes]) (by simp [u32le]; omega) hcc
  have h4 : decodeConsts m.mainConsts.length (encodeModule m)
      (4 + 4 + (encodeFuncs m.funcs).length + 4) =
      .ok (m.mainConsts, 4 + 4 + (encodeFuncs m.funcs).length + 4 +
        (encodeConstList m.mainConsts).length) :=
    decodeConsts_at m.mainConsts _ _
      ((([75, 66, 67, 2] ++ u32le m.funcs.length) ++ encodeFuncs m.funcs) ++
        u32le m.mainConsts.length)
      (u32le m.mainCode.length ++ m.mainCode)
      (by simp [hb, encodeChunkBytes]) (by simp [u32le]; omega) hcs
  have h5 : dU32 (encodeModule m)
      (4 + 4 + (encodeFuncs m.funcs).length + 4 +
        (encodeConstList m.mainConsts).length) =
      .ok (m.mainCode.length,
        4 + 4 + (encodeFuncs m.funcs).length + 4 +
          (encodeConstList m.mainConsts).length + 4) :=
    dU32_at _ _
      (((([75, 66, 67, 2] ++ u32le m.funcs.length) ++ encodeFuncs m.funcs) ++
        u32le m.mainConsts.length) ++ encodeConstList m.mainConsts)
      m.mainCode m.mainCode.length
      (by simp [hb, encodeChunkBytes]) (by simp [u32le]; omega) hcl
  have h6 : dBytes m.mainCode.length (encodeModule m)
      (4 + 4 + (encodeFuncs m.funcs).length + 4 +
        (encodeConstList m.mainConsts).length + 4) =
      .ok (m.mainCode,
        4 + 4 + (encodeFuncs m.funcs).length + 4 +
          (encodeConstList m.mainConsts).length + 4 + m.mainCode.length) :=
    dBytes_at _ _ _
      ((((([75, 66, 67, 2] ++ u32le m.funcs.length) ++ encodeFuncs m.funcs) ++
        u32le m.mainConsts.length) ++ encodeConstList m.mainConsts) ++
        u32le m.mainCode.length)
      m.mainCode []
      (by simp [hb, encodeChunkBytes]) (by simp [u32le]; omega) rfl
  simp only [decodeModuleAux, h0, h1, h2, h3, h4, h5, h6, except_bind_ok,
    except_pure]
  simp [hb, encodeChunkBytes, u32le]
  omega

/-! ## Claim C4: encoder/decoder round trip -/

/-- C4: decoding the encoder's output yields the original module — the
function table order, every constant's kind and payload, and every code
byte sequence (per function and for the main chunk) are preserved
exactly.  Well-formedness asks only that each count and length fits its
32-bit (or, for float bit patterns, 64-bit) wire field. -/
theorem claim_c4_decode_encode_roundtrip (m : Module) (hm : wfModule m) :
    decodeModule (encodeModule m) = .ok m := by
  rw [decodeModule, decodeModuleAux_encode m hm]
  rfl

/-- A module exercising all three constant kinds and a function entry. -/
def c4Module : Module :=
  ⟨[⟨[.cstr [97, 98], .cflt 4617315517961601024, .cint 7], [19]⟩],
   [.cstr [], .cflt 0, .cint 4294967295], [1, 0, 0, 0, 0, 19]⟩

/-- Witness for `claim_c4_decode_encode_roundtrip` at `c4Module`. -/
theorem claim_c4_roundtrip_witness :
    wfModule c4Module ∧ decodeModule (encodeModule c4Module) = .ok c4Module :=
  ⟨by decide, claim_c4_decode_encode_roundtrip c4Module (by decide)⟩

/-! ### Behaviour of the loader on truncated buffers

Each reader, run on a truncated buffer, either returns exactly what it
returned on the full buffer (when all its reads stay below the cut) or
fails; it can never return a different value.  Composing these facts,
the loader can only fail on a strict truncation of a valid module,
because its successful run consumes the whole buffer. -/

theorem dByte_take (b : List ℕ) (p k : ℕ) (x q : ℕ)
    (h : dByte b p = .ok (x, q)) :
    dByte (b.take k) p = .ok (x, q) ∨
      dByte (b.take k) p = .error .outOfRange := by
  by_cases hk : p < k
  · left
    rw [dByte, List.get?_eq_getElem?, List.getElem?_take_of_lt hk,
      ← List.get?_eq_getElem?]
    rw [dByte] at h
    exact h
  · right
    have hnone : (b.take k).get? p = none := by
      apply List.get?_eq_none.2
      have := List.length_take k b
      omega
    rw [dByte, hnone]

theorem dU32_take (b : List ℕ) (p k : ℕ) (v q : ℕ)
    (h : dU32 b p = .ok (v, q)) :
    dU32 (b.take k) p = .ok (v, q) ∨
      dU32 (b.take k) p = .error .outOfRange := by
  rw [dU32] at h
  by_cases hlen : p + 4 ≤ b.length
  · rw [if_pos hlen] at h
    by_cases hk : p + 4 ≤ k
    · left
      have hl2 : p + 4 ≤ (b.take k).length := by
        simp [List.length_take]; omega
      have hg : ∀ i, i < 4 → (b.take k).getD (p + i) 0 = b.getD (p + i) 0 := by
        intro i hi
        simp only [List.getD_eq_getElem?_getD]
        rw [List.getElem?_take_of_lt (by omega)]
      rw [dU32, if_pos hl2]
      have e0 := hg 0 (by omega)
      have e1 := hg 1 (by omega)
      have e2 := hg 2 (by omega)
      have e3 := hg 3 (by omega)
      simp only [Nat.add_zero] at e0
      rw [e0, e1, e2, e3]
      exact h
    · right
      rw [dU32, if_neg (by simp [List.length_take]; omega)]
  · rw [if_neg hlen] at h
    cases h

theorem dU64_take (b : List ℕ) (p k : ℕ) (v q : ℕ)
    (h : dU64 b p = .ok (v, q)) :
    dU64 (b.take k) p = .ok (v, q) ∨
      dU64 (b.take k) p = .error .outOfRange := by
  rw [dU64] at h
  by_cases hlen : p + 8 ≤ b.length
  · rw [if_pos hlen] at h
    by_cases hk : p + 8 ≤ k
    · left
      have hl2 : p + 8 ≤ (b.take k).length := by
        simp [List.length_take]; omega
      have hg : ∀ i, i < 8 → (b.take k).getD (p + i) 0 = b.getD (p + i) 0 := by
        intro i hi
        simp only [List.getD_eq_getElem?_getD]
        rw [List.getElem?_take_of_lt (by omega)]
      rw [dU64, if_pos hl2]
      have e0 := hg 0 (by omega)
      have e1 := hg 1 (by omega)
      have e2 := hg 2 (by omega)
      have e3 := hg 3 (by omega)
      have e4 := hg 4 (by omega)
      have e5 := hg 5 (by omega)
      have e6 := hg 6 (by omega)
      have e7 := hg 7 (by omega)
      simp only [Nat.add_zero] at e0
      rw [e0, e1, e2, e3, e4, e5, e6, e7]
      exact h
    · right
      rw [dU64, if_neg (by simp [List.length_take]; omega)]
  · rw [if_neg hlen] at h
    cases h

theorem dBytes_take (l : ℕ) (b : List ℕ) (p k : ℕ) (s : List ℕ) (q : ℕ)
    (h : dBytes l b p = .ok (s, q)) :
    dBytes l (b.take k) p = .ok (s, q) ∨
      dBytes l (b.take k) p = .error .outOfRange := by
  rw [dBytes] at h
  by_cases hlen : p + l ≤ b.length
  · rw [if_pos hlen] at h
    by_cases hk : p + l ≤ k
    · left
      have hl2 : p + l ≤ (b.take k).length := by
        simp [List.length_take]; omega
      have hval : ((b.take k).drop p).take l = (b.drop p).take l := by
        rw [List.drop_take]
        rw [List.take_take]
        have : min l (k - p) = l := by omega
        rw [this]
      rw [dBytes, if_pos hl2, hval]
      exact h
    · right
      rw [dBytes, if_neg (by simp [List.length_take]; omega)]
  · rw [if_neg hlen] at h
    cases h

theorem dHeader_take (b : List ℕ) (p k : ℕ) (h : dHeader b = .ok p) :
    dHeader (b.take k) = .ok p ∨ ∃ e, dHeader (b.take k) = .error e := by
  rw [dHeader] at h
  by_cases h3 : 3 ≤ b.length
  · rw [if_pos h3] at h
    by_cases hm : b.take 3 = [75, 66, 67]
    · rw [if_pos hm] at h
      cases hver : dByte b 3 with
      | error e => rw [hver] at h; cases h
      | ok r =>
          rw [hver] at h
          by_cases hk : 3 ≤ k
          · have h3t : 3 ≤ (b.take k).length := by
              simp [List.length_take]; omega
            have hmt : (b.take k).take 3 = [75, 66, 67] := by
              rw [List.take_take]
              have : min 3 k = 3 := by omega
              rw [this, hm]
            rcases dByte_take b 3 k r.1 r.2 (by rw [hver]) with hbt | hbt
            · left
              rw [dHeader, if_pos h3t, if_pos hmt, hbt]
              exact h
            · right
              refine ⟨.outOfRange, ?_⟩
              rw [dHeader, if_pos h3t, if_pos hmt, hbt]
          · right
            refine ⟨.outOfRange, ?_⟩
            rw [dHeader, if_neg (by simp [List.length_take]; omega)]
    · rw [if_neg hm] at h
      cases h
  · rw [if_neg h3] at h
    cases h

theorem skipConst_take (b : List ℕ) (p q k : ℕ)
    (h : skipConst b p = .ok q) :
    skipConst (b.take k) p = .ok q ∨
      ∃ e, skipConst (b.take k) p = .error e := by
  cases hby : dByte b p with
  | error e => simp [skipConst, hby, except_bind_error] at h
  | ok r =>
      obtain ⟨x, p1⟩ := r
      rcases dByte_take b p k x p1 hby with hbt | hbt
      · by_cases hx1 : x = 1
        · subst hx1
          simp only [skipConst, hby, except_bind_ok] at h
          cases hu : dU32 b p1 with
          | error e => simp [hu, except_bind_error] at h
          | ok r2 =>
              obtain ⟨l, p2⟩ := r2
              simp only [hu, except_bind_ok, except_pure] at h
              rcases dU32_take b p1 k l p2 hu with hut | hut
              · left
                simp only [skipConst, hbt, except_bind_ok, hut, except_pure]
                exact h
              · right
                refine ⟨.outOfRange, ?_⟩
                simp only [skipConst, hbt, except_bind_ok, hut,
                  except_bind_error]
        · by_cases hx2 : x = 2
          · subst hx2
            simp only [skipConst, hby, except_bind_ok, except_pure] at h
            left
            simp only [skipConst, hbt, except_bind_ok, except_pure]
            exact h
          · by_cases hx3 : x = 3
            · subst hx3
              simp only [skipConst, hby, except_bind_ok, except_pure] at h
              left
              simp only [skipConst, hbt, except_bind_ok, except_pure]
              exact h
            · rcases Nat.lt_or_ge x 4 with h4 | h4
              · have hx0 : x = 0 := by omega
                subst hx0
                simp only [skipConst, hby, except_bind_ok] at h
                cases h
              · obtain ⟨m, rfl⟩ : ∃ m, x = m + 4 := ⟨x - 4, by omega⟩
                simp only [skipConst, hby, except_bind_ok] at h
                cases h
      · right
        refine ⟨.outOfRange, ?_⟩
        simp only [skipConst, hbt, except_bind_error]

theorem decodeConst_take (b : List ℕ) (p k : ℕ) (c : Const) (q : ℕ)
    (h : decodeConst b p = .ok (c, q)) :
    decodeConst (b.take k) p = .ok (c, q) ∨
      ∃ e, decodeConst (b.take k) p = .error e := by
  cases hby : dByte b p with
  | error e => simp [decodeConst, hby, except_bind_error] at h
  | ok r =>
      obtain ⟨x, p1⟩ := r
      rcases dByte_take b p k x p1 hby with hbt | hbt
      · by_cases hx1 : x = 1
        · subst hx1
          simp only [decodeConst, hby, except_bind_ok] at h
          cases hu : dU32 b p1 with
          | error e => simp [hu, except_bind_error] at h
          | ok r2 =>
              obtain ⟨l, p2⟩ := r2
              simp only [hu, except_bind_ok] at h
              cases hs : dBytes l b p2 with
              | error e => simp [hs, except_bind_error] at h
              | ok r3 =>
                  obtain ⟨s, p3⟩ := r3
                  simp only [hs, except_bind_ok, except_pure] at h
                  rcases dU32_take b p1 k l p2 hu with hut | hut
                  · rcases dBytes_take l b p2 k s p3 hs with hst | hst
                    · left
                      simp only [decodeConst, hbt, except_bind_ok, hut, hst,
                        except_pure]
                      exact h
                    · right
                      refine ⟨.outOfRange, ?_⟩
                      simp only [decodeConst, hbt, except_bind_ok, hut, hst,
                        except_bind_error]
                  · right
                    refine ⟨.outOfRange, ?_⟩
                    simp only [decodeConst, hbt, except_bind_ok, hut,
                      except_bind_error]
        · by_cases hx2 : x = 2
          · subst hx2
            simp only [decodeConst, hby, except_bind_ok] at h
            cases hu : dU64 b p1 with
            | error e => simp [hu, except_bind_error] at h
            | ok r2 =>
                obtain ⟨bits, p2⟩ := r2
                simp only [hu, except_bind_ok, except_pure] at h
                rcases dU64_take b p1 k bits p2 hu with hut | hut
                · left
                  simp only [decodeConst, hbt, except_bind_ok, hut,
                    except_pure]
                  exact h
                · right
                  refine ⟨.outOfRange, ?_⟩
                  simp only [decodeConst, hbt, except_bind_ok, hut,
                    except_bind_error]
          · by_cases hx3 : x = 3
            · subst hx3
              simp only [decodeConst, hby, except_bind_ok] at h
              cases hu : dU32 b p1 with
              | error e => simp [hu, except_bind_error] at h
              | ok r2 =>
                  obtain ⟨v, p2⟩ := r2
                  simp only [hu, except_bind_ok, except_pure] at h
                  rcases dU32_take b p1 k v p2 hu with hut | hut
                  · left
                    simp only [decodeConst, hbt, except_bind_ok, hut,
                      except_pure]
                    exact h
                  · right
                    refine ⟨.outOfRange, ?_⟩
                    simp only [decodeConst, hbt, except_bind_ok, hut,
                      except_bind_error]
            · rcases Nat.lt_or_ge x 4 with h4 | h4
              · have hx0 : x = 0 := by omega
                subst hx0
                simp only [decodeConst, hby, except_bind_ok] at h
                cases h
              · obtain ⟨m, rfl⟩ : ∃ m, x = m + 4 := ⟨x - 4, by omega⟩
                simp only [decodeConst, hby, except_bind_ok] at h
                cases h
      · right
        refine ⟨.outOfRange, ?_⟩
        simp only [decodeConst, hbt, except_bind_error]

theorem skipConsts_take :
    ∀ (n : ℕ) (b : List ℕ) (p q k : ℕ), skipConsts n b p = .ok q →
      skipConsts n (b.take k) p = .ok q ∨
        ∃ e, skipConsts n (b.take k) p = .error e := by
  intro n
  induction n with
  | zero =>
      intro b p q k h
      left
      simpa [skipConsts] using h
  | succ m ih =>
      intro b p q k h
      cases hc : skipConst b p with
      | error e => simp [skipConsts, hc, except_bind_error] at h
      | ok p1 =>
          simp only [skipConsts, hc, except_bind_ok] at h
          rcases skipConst_take b p p1 k hc with hct | ⟨e, hct⟩
          · rcases ih b p1 q k h with hr | ⟨e, hr⟩
            · left
              simp only [skipConsts, hct, except_bind_ok, hr]
            · right
              refine ⟨e, ?_⟩
              simp only [skipConsts, hct, except_bind_ok, hr]
          · right
            refine ⟨e, ?_⟩
            simp only [skipConsts, hct, except_bind_error]

theorem skipFuncs_take :
    ∀ (n : ℕ) (b : List ℕ) (p q k : ℕ), skipFuncs n b p = .ok q →
      skipFuncs n (b.take k) p = .ok q ∨
        ∃ e, skipFuncs n (b.take k) p = .error e := by
  intro n
  induction n with
  | zero =>
      intro b p q k h
      left
      simpa [skipFuncs] using h
  | succ m ih =>
      intro b p q k h
      cases hc : dU32 b p with
      | error e => simp [skipFuncs, hc, except_bind_error] at h
      | ok r =>
          obtain ⟨cc, p1⟩ := r
          simp only [skipFuncs, hc, except_bind_ok] at h
          cases hs : skipConsts cc b p1 with
          | error e => simp [hs, except_bind_error] at h
          | ok p2 =>
              simp only [hs, except_bind_ok] at h
              cases hl : dU32 b p2 with
              | error e => simp [hl, except_bind_error] at h
              | ok r2 =>
                  obtain ⟨l, p3⟩ := r2
                  simp only [hl, except_bind_ok] at h
                  rcases dU32_take b p k cc p1 hc with hct | hct
                  · rcases skipConsts_take cc b p1 p2 k hs with hst | ⟨e, hst⟩
                    · rcases dU32_take b p2 k l p3 hl with hlt | hlt
                      · rcases ih b (p3 + l) q k h with hr | ⟨e, hr⟩
                        · left
                          simp only [skipFuncs, hct, except_bind_ok, hst,
                            hlt, hr]
                        · right
                          refine ⟨e, ?_⟩
                          simp only [skipFuncs, hct, except_bind_ok, hst,
                            hlt, hr]
                      · right
                        refine ⟨.outOfRange, ?_⟩
                        simp only [skipFuncs, hct, except_bind_ok, hst, hlt,
                          except_bind_error]
                    · right
                      refine ⟨e, ?_⟩
                      simp only [skipFuncs, hct, except_bind_ok, hst,
                        except_bind_error]
                  · right
                    refine ⟨.outOfRange, ?_⟩
                    simp only [skipFuncs, hct, except_bind_error]

theorem decodeConsts_take :
    ∀ (n : ℕ) (b : List ℕ) (p k : ℕ) (cs : List Const) (q : ℕ),
      decodeConsts n b p = .ok (cs, q) →
      decodeConsts n (b.take k) p = .ok (cs, q) ∨
        ∃ e, decodeConsts n (b.take k) p = .error e := by
  intro n
  induction n with
  | zero =>
      intro b p k cs q h
      left
      simpa [decodeConsts] using h
  | succ m ih =>
      intro b p k cs q h
      cases hc : decodeConst b p with
      | error e => simp [decodeConsts, hc, except_bind_error] at h
      | ok r =>
          obtain ⟨c, p1⟩ := r
          simp only [decodeConsts, hc, except_bind_ok] at h
          cases hr : decodeConsts m b p1 with
          | error e => simp [hr, except_bind_error] at h
          | ok r2 =>
              obtain ⟨cs2, p2⟩ := r2
              simp only [hr, except_bind_ok, except_pure] at h
              rcases decodeConst_take b p k c p1 hc with hct | ⟨e, hct⟩
              · rcases ih b p1 k cs2 p2 hr with hrt | ⟨e, hrt⟩
                · left
                  simp only [decodeConsts, hct, except_bind_ok, hrt,
                    except_pure]
                  exact h
                · right
                  refine ⟨e, ?_⟩
                  simp only [decodeConsts, hct, except_bind_ok, hrt,
                    except_bind_error]
              · right
                refine ⟨e, ?_⟩
                simp only [decodeConsts, hct, except_bind_error]

/-- A successful raw-bytes read ends within the buffer. -/
theorem dBytes_bound (l : ℕ) (b : List ℕ) (p : ℕ) (s : List ℕ) (q : ℕ)
    (h : dBytes l b p = .ok (s, q)) : q ≤ b.length := by
  rw [dBytes] at h
  by_cases hlen : p + l ≤ b.length
  · rw [if_pos hlen] at h
    cases h
    exact hlen
  · rw [if_neg hlen] at h
    cases h

/-- A successful load consumes an offset within the buffer (the final
main-code slice is bounds-checked). -/
theorem loadModuleAux_bound (b : List ℕ) (rr : List Const × List ℕ) (q : ℕ)
    (h : loadModuleAux b = .ok (rr, q)) : q ≤ b.length := by
  cases h0 : dHeader b with
  | error e => simp [loadModuleAux, h0, except_bind_error] at h
  | ok p0 =>
      simp only [loadModuleAux, h0, except_bind_ok] at h
      cases h1 : dU32 b p0 with
      | error e => simp [h1, except_bind_error] at h
      | ok r1 =>
          obtain ⟨fnCount, p1⟩ := r1
          simp only [h1, except_bind_ok] at h
          cases h2 : skipFuncs fnCount b p1 with
          | error e => simp [h2, except_bind_error] at h
          | ok p2 =>
              simp only [h2, except_bind_ok] at h
              cases h3 : dU32 b p2 with
              | error e => simp [h3, except_bind_error] at h
              | ok r3 =>
                  obtain ⟨cCount, p3⟩ := r3
                  simp only [h3, except_bind_ok] at h
                  cases h4 : decodeConsts cCount b p3 with
                  | error e => simp [h4, except_bind_error] at h
                  | ok r4 =>
                      obtain ⟨cs, p4⟩ := r4
                      simp only [h4, except_bind_ok] at h
                      cases h5 : dU32 b p4 with
                      | error e => simp [h5, except_bind_error] at h
                      | ok r5 =>
                          obtain ⟨codeLen, p5⟩ := r5
                          simp only [h5, except_bind_ok] at h
                          cases h6 : dBytes codeLen b p5 with
                          | error e => simp [h6, except_bind_error] at h
                          | ok r6 =>
                              obtain ⟨code, p6⟩ := r6
                              simp only [h6, except_bind_ok,
                                except_pure] at h
                              have hp := Except.ok.inj h
                              have hq : p6 = q := congrArg Prod.snd hp
                              rw [← hq]
                              exact dBytes_bound codeLen b p5 code p6 h6

/-- On a truncated buffer, the loader returns the full-buffer result or
fails; it never silently returns something else. -/
theorem loadModuleAux_take (b : List ℕ) (r : (List Const × List ℕ) × ℕ)
    (k : ℕ) (h : loadModuleAux b = .ok r) :
    loadModuleAux (b.take k) = .ok r ∨
      ∃ e, loadModuleAux (b.take k) = .error e := by
  cases h0 : dHeader b with
  | error e => simp [loadModuleAux, h0, except_bind_error] at h
  | ok p0 =>
      simp only [loadModuleAux, h0, except_bind_ok] at h
      cases h1 : dU32 b p0 with
      | error e => simp [h1, except_bind_error] at h
      | ok r1 =>
          obtain ⟨fnCount, p1⟩ := r1
          simp only [h1, except_bind_ok] at h
          cases h2 : skipFuncs fnCount b p1 with
          | error e => simp [h2, except_bind_error] at h
          | ok p2 =>
              simp only [h2, except_bind_ok] at h
              cases h3 : dU32 b p2 with
              | error e => simp [h3, except_bind_error] at h
              | ok r3 =>
                  obtain ⟨cCount, p3⟩ := r3
                  simp only [h3, except_bind_ok] at h
                  cases h4 : decodeConsts cCount b p3 with
                  | error e => simp [h4, except_bind_error] at h
                  | ok r4 =>
                      obtain ⟨cs, p4⟩ := r4
                      simp only [h4, except_bind_ok] at h
                      cases h5 : dU32 b p4 with
                      | error e => simp [h5, except_bind_error] at h
                      | ok r5 =>
                          obtain ⟨codeLen, p5⟩ := r5
                          simp only [h5, except_bind_ok] at h
                          cases h6 : dBytes codeLen b p5 with
                          | error e => simp [h6, except_bind_error] at h
                          | ok r6 =>
                              obtain ⟨code, p6⟩ := r6
                              simp only [h6, except_bind_ok,
                                except_pure] at h
                              rcases dHeader_take b p0 k h0
                                with ht0 | ⟨e, ht0⟩
                              · rcases dU32_take b p0 k fnCount p1 h1
                                  with ht1 | ht1
                                · rcases skipFuncs_take fnCount b p1 p2 k h2
                                    with ht2 | ⟨e, ht2⟩
                                  · rcases dU32_take b p2 k cCount p3 h3
                                      with ht3 | ht3
                                    · rcases decodeConsts_take cCount b p3 k
                                        cs p4 h4 with ht4 | ⟨e, ht4⟩
                                      · rcases dU32_take b p4 k codeLen p5 h5
                                          with ht5 | ht5
                                        · rcases dBytes_take codeLen b p5 k
                                            code p6 h6 with ht6 | ht6
                                          · left
                                            simp only [loadModuleAux, ht0,
                                              except_bind_ok, ht1, ht2, ht3,
                                              ht4, ht5, ht6, except_pure]
                                            exact h
                                          · right
                                            exact ⟨.outOfRange, by
                                              simp only [loadModuleAux, ht0,
                                                except_bind_ok, ht1, ht2,
                                                ht3, ht4, ht5, ht6,
                                                except_bind_error]⟩
                                        · right
                                          exact ⟨.outOfRange, by
                                            simp only [loadModuleAux, ht0,
                                              except_bind_ok, ht1, ht2, ht3,
                                              ht4, ht5, except_bind_error]⟩
                                      · right
                                        exact ⟨e, by
                                          simp only [loadModuleAux, ht0,
                                            except_bind_ok, ht1, ht2, ht3,
                                            ht4, except_bind_error]⟩
                                    · right
                                      exact ⟨.outOfRange, by
                                        simp only [loadModuleAux, ht0,
                                          except_bind_ok, ht1, ht2, ht3,
                                          except_bind_error]⟩
                                  · right
                                    exact ⟨e, by
                                      simp only [loadModuleAux, ht0,
                                        except_bind_ok, ht1, ht2,
                                        except_bind_error]⟩
                                · right
                                  exact ⟨.outOfRange, by
                                    simp only [loadModuleAux, ht0,
                                      except_bind_ok, ht1,
                                      except_bind_error]⟩
                              · right
                                exact ⟨e, by
                                  simp only [loadModuleAux, ht0,
                                    except_bind_error]⟩

/-! ## Claim C3: decoding truncated modules -/

/-- A minimal valid module (empty function table, empty main pool, one
`OP_RET` byte of main code): its encoding is 17 bytes. -/
def c3Module : Module := ⟨[], [], [19]⟩

/-- C3 counterexample: decoding the 17-byte encoding of `c3Module`
truncated to 16 bytes (the length-prefixed `main_code` region shortened)
fails with an out-of-range read — a Go slice-bounds panic — and NOT with
the loader's FormatError family: `loadModule` performs no length
validation, so truncation is not reported as a truncated-module format
error. -/
theorem claim_c3_counterexample :
    loadModule ((encodeModule c3Module).take 16) = .error .outOfRange ∧
    loadModule ((encodeModule c3Module).take 16) ≠
      .error .formatError := by
  refine ⟨by decide, by decide⟩

/-- C3 (amended): truncating a valid encoded module anywhere strictly
before its end makes `loadModule` fail — it never reads out of the
buffer's bounds (every access is an explicit checked read in this
model, mirroring Go's bounds-checked slicing) and never silently
succeeds — but the failure is an unchecked out-of-range read, not a
FormatError: the loader validates no length field against the buffer
end. -/
theorem claim_c3_truncated_never_succeeds (m : Module) (hm : wfModule m)
    (k : ℕ) (hk : k < (encodeModule m).length) :
    ∃ e, loadModule ((encodeModule m).take k) = .error e := by
  have hfull := loadModuleAux_encode m hm
  rcases loadModuleAux_take (encodeModule m)
      ((m.mainConsts, m.mainCode), (encodeModule m).length) k hfull
    with hok | ⟨e, he⟩
  · exfalso
    have hb := loadModuleAux_bound ((encodeModule m).take k)
      (m.mainConsts, m.mainCode) (encodeModule m).length hok
    rw [List.length_take] at hb
    omega
  · exact ⟨e, by rw [loadModule, he]; rfl⟩

/-- Witness for `claim_c3_truncated_never_succeeds`: `c3Module`
truncated at byte 16. -/
theorem claim_c3_truncated_witness :
    wfModule c3Module ∧ 16 < (encodeModule c3Module).length ∧
    ∃ e, loadModule ((encodeModule c3Module).take 16) = .error e :=
  ⟨by decide, by decide,
   claim_c3_truncated_never_succeeds c3Module (by decide) 16 (by decide)⟩

end Kyra
